import Mathlib

/-!
The encode/decode pipeline of `src/asm.go`.

A shallow embedding of the Go program `asm.go`: the chunking loop of
`emitMcode`, the token packing loop of `disassemble`, the architecture hint
`arch`, and the effectful pipelines `assemble`, `disassemble`, `emitMcode`
as functions that extend a trace of effects.

Go values are modelled as follows.
* a `byte` is a `Fin 256`; a `[]byte` and a `string` are lists of bytes
  (a Go string is a byte sequence);
* `uint16`, `uint32`, `uint64` values are natural numbers, reduced modulo
  `2 ^ w` where the source converts;
* a call of `os.Exit` ends the run: the functions return `Option`, `none`
  standing for a run that has exited (the exit is the last event of the trace).
-/

-- Equality of results held in `Except` is decidable.
deriving instance DecidableEq for Except

namespace Asm

/-! ## Bytes and strings -/

/-- A Go `byte`. -/
abbrev Byte := Fin 256

/-- A Go `string`: an immutable sequence of bytes. -/
abbrev GoString := List Byte

/-- The Go conversion `byte(n)` of an unsigned integer. -/
def byte (n : Nat) : Byte := ⟨n % 256, Nat.mod_lt n (by decide)⟩

/-- A string literal of the source, as its bytes (the literals of `asm.go` are ASCII). -/
def str (s : String) : GoString := s.toList.map (fun c => byte c.toNat)

/-! ## `encoding/binary`, little endian -/

/-- Go `binary.LittleEndian.Uint32` on the first four bytes:
`uint32(b[0]) | uint32(b[1])<<8 | uint32(b[2])<<16 | uint32(b[3])<<24`. -/
def leUint32 (b0 b1 b2 b3 : Byte) : Nat :=
  b0.val ||| b1.val <<< 8 ||| b2.val <<< 16 ||| b3.val <<< 24

/-- Go `binary.LittleEndian.Uint16` on the first two bytes:
`uint16(b[0]) | uint16(b[1])<<8`. -/
def leUint16 (b0 b1 : Byte) : Nat :=
  b0.val ||| b1.val <<< 8

/-- The four bytes `binary.LittleEndian.PutUint32` stores for `v`:
`byte(v)`, `byte(v >> 8)`, `byte(v >> 16)`, `byte(v >> 24)`. -/
def leBytes32 (v : Nat) : List Byte :=
  [byte v, byte (v >>> 8), byte (v >>> 16), byte (v >>> 24)]

/-- The two bytes `binary.LittleEndian.PutUint16` stores for `v`. -/
def leBytes16 (v : Nat) : List Byte :=
  [byte v, byte (v >>> 8)]

/-- Go `binary.LittleEndian.PutUint32(buf, v)`: stores the four bytes of `v` at
`buf[0..3]` and leaves the rest of `buf` alone; it panics (`none`) when `buf` is
shorter than four bytes. -/
def putUint32 (buf : List Byte) (v : Nat) : Option (List Byte) :=
  if 4 ≤ buf.length then some (leBytes32 v ++ buf.drop 4) else none

/-! ## `fmt`: the verbs `%x` and `%d` -/

/-- The digit table `"0123456789abcdef"` of package `fmt` (lowercase). -/
def ldigit (d : Nat) : Byte :=
  if d < 10 then byte (48 + d) else byte (87 + d)

/-- The digit loop of `fmt.fmtInteger`:
`for u >= base { buf[i] = digits[u % base]; u /= base }; buf[i] = digits[u]`,
filling the buffer from its end. The first argument bounds the number of
iterations. -/
def fmtIntegerLoop (base : Nat) : Nat → Nat → GoString → GoString
  | 0, u, acc => ldigit u :: acc
  | fuel + 1, u, acc =>
    if base ≤ u then fmtIntegerLoop base fuel (u / base) (ldigit (u % base) :: acc)
    else ldigit u :: acc

/-- What `fmt.fmtInteger` writes for an unsigned `u` without flags: the digits of
`u` in the base, most significant first, no padding and no prefix. -/
def fmtInteger (base u : Nat) : GoString :=
  fmtIntegerLoop base u u []

/-- The text of `%x` applied to an unsigned integer. -/
def fmtHex (u : Nat) : GoString := fmtInteger 16 u

/-- The text of `%d` applied to a `[]byte`: the elements in decimal, separated
by a blank, between square brackets. -/
def fmtBytesD (bs : List Byte) : GoString :=
  str "[" ++ (List.intercalate (str " ") (bs.map (fun b => fmtInteger 10 b.val))) ++ str "]"

/-! ## The encode side: the chunking loop of `emitMcode` -/

/-- One `fmt.Printf` call of `emitMcode`, tagged by its call site. -/
inductive Token where
  /-- Line 145: `fmt.Printf("%x\n", binary.LittleEndian.Uint32(data))`. -/
  | word32 (v : Nat)
  /-- Line 149: `fmt.Printf("%x\n", binary.LittleEndian.Uint16(data))`. -/
  | word16 (v : Nat)
  /-- Line 153: `fmt.Printf("%d\n", data)`. -/
  | tail (bs : List Byte)
  deriving DecidableEq, Repr

/-- The text a `Printf` call of `emitMcode` writes to standard output. -/
def Token.text : Token → GoString
  | .word32 v => fmtHex v ++ str "\n"
  | .word16 v => fmtHex v ++ str "\n"
  | .tail bs => fmtBytesD bs ++ str "\n"

/-- Lines 144-147 of `emitMcode`: `for len(data) >= 4 { Printf; data = data[4:] }`.
Returns the calls made and the value of `data` when the loop ends. -/
def emitWords : List Byte → List Token × List Byte
  | b0 :: b1 :: b2 :: b3 :: rest =>
    let r := emitWords rest
    (Token.word32 (leUint32 b0 b1 b2 b3) :: r.1, r.2)
  | data => ([], data)

/-- Lines 148-151 of `emitMcode`: `if len(data) >= 2 { Printf; data = data[2:] }`. -/
def emitHalf : List Byte → List Token × List Byte
  | b0 :: b1 :: rest => ([Token.word16 (leUint16 b0 b1)], rest)
  | data => ([], data)

/-- Lines 152-154 of `emitMcode`: `if len(data) > 0 { Printf("%d\n", data) }`. -/
def emitTail : List Byte → List Token
  | [] => []
  | data => [Token.tail data]

/-- Lines 144-154 of `emitMcode`: the `Printf` calls made for the image `data`,
in order. -/
def emitTokens (data : List Byte) : List Token :=
  let w := emitWords data
  let h := emitHalf w.2
  w.1 ++ h.1 ++ emitTail h.2

/-- The text `emitMcode` prints for the image `data`. -/
def emitText (data : List Byte) : GoString :=
  ((emitTokens data).map Token.text).flatten

/-- The bytes a token stands for: a word's value stored little endian in its
width, the tail's bytes as they are. -/
def Token.bytes : Token → List Byte
  | .word32 v => leBytes32 v
  | .word16 v => leBytes16 v
  | .tail bs => bs

/-! ## The decode side: `strings.Split`, `strconv.ParseUint`, the packing loop -/

/-- Go `strings.Split(s, "\n")`: the substrings of `s` between the newline
bytes, in order; one more substring than there are newlines, so never empty. -/
def splitLines : GoString → List GoString
  | [] => [[]]
  | c :: cs =>
    if c = 10 then [] :: splitLines cs
    else
      match splitLines cs with
      | [] => [[c]]
      | t :: ts => (c :: t) :: ts

/-- The two errors of `strconv.ParseUint`: `ErrSyntax` and `ErrRange`. -/
inductive NumError where
  | errSyntax
  | errRange
  deriving DecidableEq, Repr

/-- Go `lower(c)` of package `strconv`: `c | ('x' - 'X')`. -/
def lower (c : Byte) : Nat := c.val ||| 32

/-- The digit value `strconv.ParseUint` gives a byte, before the comparison with
the base: `c - '0'` for `'0'..'9'`, `lower(c) - 'a' + 10` for a letter, and a
syntax error otherwise (the underscore case needs base 0). -/
def digitVal (c : Byte) : Option Nat :=
  if 48 ≤ c.val ∧ c.val ≤ 57 then some (c.val - 48)
  else if 97 ≤ lower c ∧ lower c ≤ 122 then some (lower c - 97 + 10)
  else none

/-- The loop of `strconv.ParseUint` over the bytes of the string, with
`n` a `uint64`. -/
def parseUintLoop (base cutoff maxVal : Nat) : List Byte → Nat → Except NumError Nat
  | [], n => .ok n
  | c :: cs, n =>
    match digitVal c with
    | none => .error .errSyntax
    | some d =>
      if base ≤ d then .error .errSyntax
      else if cutoff ≤ n then .error .errRange
      else
        let n0 := (n * base) % 2 ^ 64
        let n1 := (n0 + d) % 2 ^ 64
        if n1 < n0 ∨ maxVal < n1 then .error .errRange
        else parseUintLoop base cutoff maxVal cs n1

/-- Go `strconv.ParseUint(s, 16, 32)`, the only call of the source: the empty
string is a syntax error, `cutoff = maxUint64/16 + 1`, `maxVal = 1<<32 - 1`. -/
def parseUint (s : GoString) : Except NumError Nat :=
  if s = [] then .error .errSyntax
  else parseUintLoop 16 ((2 ^ 64 - 1) / 16 + 1) (2 ^ 32 - 1) s 0

/-- How the packing loop of `disassemble` can end without a buffer. -/
inductive PackError where
  /-- The exit of `must(err)` on the error of `ParseUint` for the token: status 1. -/
  | format (token : GoString) (e : NumError)
  /-- A run-time panic of `PutUint32` on a buffer shorter than four bytes. -/
  | indexOutOfRange
  deriving DecidableEq, Repr

/-- Lines 129-133 of `disassemble`:
`for _, inst := range insts { u, err := ParseUint(inst, 16, 32); must(err);
PutUint32(buf, uint32(u)) }`. -/
def packLoop : List GoString → List Byte → Except PackError (List Byte)
  | [], buf => .ok buf
  | inst :: rest, buf =>
    match parseUint inst with
    | .error e => .error (.format inst e)
    | .ok u =>
      match putUint32 buf (u % 2 ^ 32) with
      | none => .error .indexOutOfRange
      | some buf1 => packLoop rest buf1

/-- Lines 120 and 128-133 of `disassemble`: the buffer built from the text
`mcode`, `buf := make([]byte, 4*len(insts))` filled by the loop. -/
def pack (mcode : GoString) : Except PackError (List Byte) :=
  let insts := splitLines mcode
  packLoop insts (List.replicate (4 * insts.length) 0)

/-! ## Options, effects and the environment -/

/-- The fields of the global `opts` that the pipelines read. -/
structure Opts where
  AsArgs : List GoString
  LdArgs : List GoString
  Machine : GoString
  Prefix : GoString
  Verbose : Bool
  deriving DecidableEq, Repr

/-- The global `memmap`: the text of the linker script. -/
def memmap : List Byte :=
  str ("\nSECTIONS\n\x7b\n    .text 0 :  \x7b *(.text*) \x7d\n    .data : \x7b *(.data*) \x7d \n" ++
    "    .rodata : \x7b *(.rodata*) \x7d\n    .bss : \x7b\n        *(.bss*)\n\t\t*(COMMON)\n" ++
    "        . = ALIGN(8);\n    \x7d\n\x7d\n")

/-- What `cmd.Run()` leaves behind: the two captured streams and the error, which
is non-nil when the program could not be run or exited non-zero. -/
structure RunResult where
  stdout : GoString
  stderr : GoString
  err : Option GoString
  deriving DecidableEq, Repr

/-- A line written to standard error. -/
inductive Diag where
  /-- An error value of the operating system or of `os/exec`, by its message. -/
  | err (msg : GoString)
  /-- The `*strconv.NumError` of `ParseUint` for a token. -/
  | numError (token : GoString) (e : NumError)
  /-- The captured standard error of a tool, `errb.String()`. -/
  | text (s : GoString)
  deriving DecidableEq, Repr

/-- The effects of a run on the outside world, in the order they happen. -/
inductive Event where
  /-- The call `ioutil.TempDir("", "asm")` with its results `(dir, err)`. -/
  | tempDir (dir : GoString) (err : Option GoString)
  /-- The call `ioutil.WriteFile(path, data, 0666)` with its error. -/
  | writeFile (path : GoString) (data : List Byte) (err : Option GoString)
  /-- The call `ioutil.ReadFile(path)` with its results `(data, err)`. -/
  | readFile (path : GoString) (data : List Byte) (err : Option GoString)
  /-- The call `cmd.Run()` of `exec.Command(name, args...)` with what it left. -/
  | run (name : GoString) (args : List GoString) (res : RunResult)
  /-- The line `fmt.Println(cmd)` of `docmd` under `opts.Verbose`. -/
  | verbose (name : GoString) (args : List GoString)
  /-- A `fmt.Fprintln(os.Stderr, ...)`. -/
  | stderrln (d : Diag)
  /-- A `fmt.Printf` of `emitMcode` to standard output. -/
  | token (t : Token)
  /-- The line `fmt.Println(out)` of `disassemble`. -/
  | println (out : GoString)
  /-- A run-time panic (index out of range). -/
  | panic
  /-- The call `os.Exit(code)`. -/
  | exit (code : Nat)
  /-- A call `os.RemoveAll(path)`, the recursive deletion of a directory. It is
  part of the vocabulary of effects; no function of `asm.go` performs it. -/
  | removeAll (path : GoString)
  deriving DecidableEq, Repr

/-- The outside world: what each library call answers, given the effects so far,
and `filepath.Join` on two elements. -/
structure Env where
  join : GoString → GoString → GoString
  tempDir : List Event → GoString × Option GoString
  writeFile : List Event → GoString → List Byte → Option GoString
  readFile : List Event → GoString → List Byte × Option GoString
  run : List Event → GoString → List GoString → RunResult

/-- An effectful computation: from the trace so far to the extended trace and
the value returned, `none` when the process has exited. -/
def Run (α : Type) : Type := List Event → List Event × Option α

/-- Sequencing of effectful computations; nothing runs after an exit. -/
instance : Monad Run where
  pure a := fun t => (t, some a)
  bind m f := fun t =>
    match m t with
    | (t1, some a) => f a t1
    | (t1, none) => (t1, none)

/-- Go `must(err)`: on a non-nil error, print it to standard error and
`os.Exit(1)`. -/
def must (err : Option Diag) : Run Unit := fun t =>
  match err with
  | none => (t, some ())
  | some e => (t ++ [Event.stderrln e, Event.exit 1], none)

/-- The call `ioutil.TempDir("", "asm")`. -/
def ioTempDir (env : Env) : Run (GoString × Option GoString) := fun t =>
  let r := env.tempDir t
  (t ++ [Event.tempDir r.1 r.2], some r)

/-- The call `ioutil.WriteFile(path, data, 0666)`. -/
def ioWriteFile (env : Env) (path : GoString) (data : List Byte) : Run (Option GoString) := fun t =>
  let r := env.writeFile t path data
  (t ++ [Event.writeFile path data r], some r)

/-- The call `ioutil.ReadFile(path)`. -/
def ioReadFile (env : Env) (path : GoString) : Run (List Byte × Option GoString) := fun t =>
  let r := env.readFile t path
  (t ++ [Event.readFile path r.1 r.2], some r)

/-- Go `docmd(name, args...)`: print the command under `opts.Verbose`, run it
with both streams captured, and on an error print the error and the captured
standard error and `os.Exit(1)`; otherwise return the captured standard output. -/
def docmd (env : Env) (opts : Opts) (name : GoString) (args : List GoString) : Run GoString := fun t =>
  let t1 := if opts.Verbose then t ++ [Event.verbose name args] else t
  let r := env.run t1 name args
  let t2 := t1 ++ [Event.run name args r]
  match r.err with
  | some e => (t2 ++ [Event.stderrln (Diag.err e), Event.stderrln (Diag.text r.stderr), Event.exit 1], none)
  | none => (t2, some r.stdout)

/-- The assembler call of `assemble`: `as` with `asargs`. -/
def asCall (env : Env) (opts : Opts) (dir : GoString) : GoString × List GoString :=
  (opts.Prefix ++ str "-as",
    [str "--no-warn", env.join dir (str "insts.s"), str "-o", env.join dir (str "insts.o")]
      ++ opts.AsArgs)

/-- The linker call of `assemble`: `ld` with `ldargs`. -/
def ldCall (env : Env) (opts : Opts) (dir : GoString) : GoString × List GoString :=
  (opts.Prefix ++ str "-ld",
    [env.join dir (str "insts.o"), str "-T", env.join dir (str "memmap.ld"), str "-o",
      env.join dir (str "insts.elf")] ++ opts.LdArgs)

/-- The extractor call of `assemble`: `objcopy elf -O binary bin`. -/
def objcopyCall (env : Env) (opts : Opts) (dir : GoString) : GoString × List GoString :=
  (opts.Prefix ++ str "-objcopy",
    [env.join dir (str "insts.elf"), str "-O", str "binary", env.join dir (str "insts.bin")])

/-- Go `assemble(insts)`. -/
def assemble (env : Env) (opts : Opts) (insts : GoString) : Run (List Byte) := do
  let d ← ioTempDir env
  must (d.2.map Diag.err)
  let dir := d.1
  let asm := env.join dir (str "insts.s")
  let bin := env.join dir (str "insts.bin")
  let ldscript := env.join dir (str "memmap.ld")
  let e1 ← ioWriteFile env asm insts
  must (e1.map Diag.err)
  let e2 ← ioWriteFile env ldscript memmap
  must (e2.map Diag.err)
  let _ ← docmd env opts (asCall env opts dir).1 (asCall env opts dir).2
  let _ ← docmd env opts (ldCall env opts dir).1 (ldCall env opts dir).2
  let _ ← docmd env opts (objcopyCall env opts dir).1 (objcopyCall env opts dir).2
  let r ← ioReadFile env bin
  must (r.2.map Diag.err)
  pure r.1

/-- Go `emitMcode(pattern)`: assemble, then print the tokens of the image. -/
def emitMcode (env : Env) (opts : Opts) (pattern : GoString) : Run Unit := do
  let data ← assemble env opts pattern
  fun t => (t ++ (emitTokens data).map Event.token, some ())

/-- The position of the first byte `c` in `s`, Go `strings.Index` for a
separator of one byte; `none` stands for `-1`. -/
def indexByte (c : Byte) : GoString → Option Nat
  | [] => none
  | x :: xs => if x = c then some 0 else (indexByte c xs).map (fun i => i + 1)

/-- Go `strings.Cut(s, sep)` for a separator of one byte:
`if i := Index(s, sep); i >= 0 { return s[:i], s[i+len(sep):], true }`,
`return s, "", false`. -/
def cut (s : GoString) (sep : Byte) : GoString × GoString × Bool :=
  match indexByte sep s with
  | some i => (s.take i, s.drop (i + 1), true)
  | none => (s, [], false)

/-- Go `arch(triple)`: the machine override when set, else the triple up to its
first `-`. -/
def arch (opts : Opts) (triple : GoString) : GoString :=
  if opts.Machine ≠ [] then opts.Machine
  else (cut triple 45).1

/-- Lines 128-133 of `disassemble` as part of a run: the buffer of `packLoop`,
or the exit of `must` on the first token that does not parse. -/
def packRun (insts : List GoString) : Run (List Byte) := fun t =>
  match packLoop insts (List.replicate (4 * insts.length) 0) with
  | .ok buf => (t, some buf)
  | .error (.format token e) => (t ++ [Event.stderrln (Diag.numError token e), Event.exit 1], none)
  | .error .indexOutOfRange => (t ++ [Event.panic], none)

/-- The disassembler call of `disassemble`. -/
def objdumpCall (env : Env) (opts : Opts) (dir : GoString) : GoString × List GoString :=
  (opts.Prefix ++ str "-objdump",
    [str "-b", str "binary", str "-m", arch opts opts.Prefix, str "-D",
      env.join dir (str "insts.bin")])

/-- Go `disassemble(mcode)`. The loop of lines 129-133 is `packLoop`; its `must`
ends the run on the first token that does not parse. -/
def disassemble (env : Env) (opts : Opts) (mcode : GoString) : Run Unit :=
  let insts := splitLines mcode
  if insts.length = 0 then pure ()
  else do
    let d ← ioTempDir env
    must (d.2.map Diag.err)
    let dir := d.1
    let asm := env.join dir (str "insts.bin")
    let buf ← packRun insts
    let e1 ← ioWriteFile env asm buf
    must (e1.map Diag.err)
    let out ← docmd env opts (objdumpCall env opts dir).1 (objdumpCall env opts dir).2
    fun t => (t ++ [Event.println out], some ())

/-! ## The token sequence the claims describe -/

/-- The token sequence the claim describes for an image `B` of length `L`:
`L / 4` words of 32 bits read little endian at offsets `4 * i`, one word of 16
bits when `L % 4 ≥ 2`, one tail of the single last byte when `L % 4` is 1 or 3. -/
def expectedTokens (B : List Byte) : List Token :=
  (List.range (B.length / 4)).map (fun i =>
      Token.word32 (leUint32 (B.getD (4 * i) 0) (B.getD (4 * i + 1) 0)
        (B.getD (4 * i + 2) 0) (B.getD (4 * i + 3) 0)))
    ++ (if 2 ≤ B.length % 4 then
          [Token.word16 (leUint16 (B.getD (4 * (B.length / 4)) 0)
            (B.getD (4 * (B.length / 4) + 1) 0))]
        else [])
    ++ (if B.length % 4 = 1 ∨ B.length % 4 = 3 then [Token.tail [B.getD (B.length - 1) 0]]
        else [])

/-! ## Hex digits and the base-16 value of a token -/

/-- A hex digit: `0-9`, `a-f` or `A-F`. -/
def isHexDigit (c : Byte) : Prop :=
  (48 ≤ c.val ∧ c.val ≤ 57) ∨ (97 ≤ c.val ∧ c.val ≤ 102) ∨ (65 ≤ c.val ∧ c.val ≤ 70)

instance (c : Byte) : Decidable (isHexDigit c) := by
  unfold isHexDigit; infer_instance

/-- The value of a hex digit (0 for any other byte). -/
def hexDigitVal (c : Byte) : Nat :=
  if 48 ≤ c.val ∧ c.val ≤ 57 then c.val - 48
  else if 97 ≤ c.val ∧ c.val ≤ 102 then c.val - 87
  else if 65 ≤ c.val ∧ c.val ≤ 70 then c.val - 55
  else 0

/-- The base-16 value of the digits `s` read after a prefix of value `n`. -/
def hexValFrom (n : Nat) (s : GoString) : Nat :=
  s.foldl (fun m c => 16 * m + hexDigitVal c) n

/-- The base-16 value of a token. -/
def hexVal (s : GoString) : Nat := hexValFrom 0 s

/-- The tokens that `ParseUint(s, 16, 32)` rejects: one with a byte that is not
a hex digit, or with a value of `2 ^ 32` or more. -/
def badToken (t : GoString) : Prop :=
  (∃ c ∈ t, ¬ isHexDigit c) ∨ 2 ^ 32 ≤ hexVal t

instance (t : GoString) : Decidable (badToken t) := by
  unfold badToken; infer_instance

/-! ## Lowercase hex digits -/

/-- A lowercase hex digit: `0-9` or `a-f`. -/
def isLowerHexDigit (c : Byte) : Prop :=
  (48 ≤ c.val ∧ c.val ≤ 57) ∨ (97 ≤ c.val ∧ c.val ≤ 102)

instance (c : Byte) : Decidable (isLowerHexDigit c) := by
  unfold isLowerHexDigit; infer_instance

/-! ## The paths of the pipelines -/

/-- The events of a tool invocation by `docmd`, up to and including `cmd.Run()`. -/
def invoked (opts : Opts) (call : GoString × List GoString) (r : RunResult) : List Event :=
  (if opts.Verbose then [Event.verbose call.1 call.2] else []) ++ [Event.run call.1 call.2 r]

/-- The events by which `docmd` ends the run after a failed invocation. -/
def aborted (r : RunResult) (e : GoString) : List Event :=
  [Event.stderrln (Diag.err e), Event.stderrln (Diag.text r.stderr), Event.exit 1]

/-- The events of `assemble` up to the assembler call, when staging succeeds. -/
def staged (env : Env) (insts : GoString) (dir : GoString) : List Event :=
  [Event.tempDir dir none, Event.writeFile (env.join dir (str "insts.s")) insts none,
    Event.writeFile (env.join dir (str "memmap.ld")) memmap none]

/-- The runs of `assemble`: the trace and the result on each of its paths. -/
inductive AssemblePath (env : Env) (opts : Opts) (insts : GoString) :
    List Event × Option (List Byte) → Prop where
  /-- The call of `TempDir` failed. -/
  | noDir (dir e : GoString) :
    AssemblePath env opts insts
      ([Event.tempDir dir (some e), Event.stderrln (Diag.err e), Event.exit 1], none)
  /-- Writing the source file failed. -/
  | noSource (dir e : GoString) :
    AssemblePath env opts insts
      ([Event.tempDir dir none, Event.writeFile (env.join dir (str "insts.s")) insts (some e),
        Event.stderrln (Diag.err e), Event.exit 1], none)
  /-- Writing the linker script failed. -/
  | noScript (dir e : GoString) :
    AssemblePath env opts insts
      ([Event.tempDir dir none, Event.writeFile (env.join dir (str "insts.s")) insts none,
        Event.writeFile (env.join dir (str "memmap.ld")) memmap (some e),
        Event.stderrln (Diag.err e), Event.exit 1], none)
  /-- The assembler failed. -/
  | asFailed (dir : GoString) (r1 : RunResult) (e : GoString) (h1 : r1.err = some e) :
    AssemblePath env opts insts
      (staged env insts dir ++ invoked opts (asCall env opts dir) r1 ++ aborted r1 e, none)
  /-- The linker failed. -/
  | ldFailed (dir : GoString) (r1 r2 : RunResult) (e : GoString)
      (h1 : r1.err = none) (h2 : r2.err = some e) :
    AssemblePath env opts insts
      (staged env insts dir ++ invoked opts (asCall env opts dir) r1
        ++ invoked opts (ldCall env opts dir) r2 ++ aborted r2 e, none)
  /-- The extractor failed. -/
  | objcopyFailed (dir : GoString) (r1 r2 r3 : RunResult) (e : GoString)
      (h1 : r1.err = none) (h2 : r2.err = none) (h3 : r3.err = some e) :
    AssemblePath env opts insts
      (staged env insts dir ++ invoked opts (asCall env opts dir) r1
        ++ invoked opts (ldCall env opts dir) r2
        ++ invoked opts (objcopyCall env opts dir) r3 ++ aborted r3 e, none)
  /-- Reading the image failed. -/
  | noImage (dir : GoString) (r1 r2 r3 : RunResult) (data : List Byte) (e : GoString)
      (h1 : r1.err = none) (h2 : r2.err = none) (h3 : r3.err = none) :
    AssemblePath env opts insts
      (staged env insts dir ++ invoked opts (asCall env opts dir) r1
        ++ invoked opts (ldCall env opts dir) r2
        ++ invoked opts (objcopyCall env opts dir) r3
        ++ [Event.readFile (env.join dir (str "insts.bin")) data (some e),
          Event.stderrln (Diag.err e), Event.exit 1], none)
  /-- The image was read. -/
  | image (dir : GoString) (r1 r2 r3 : RunResult) (data : List Byte)
      (h1 : r1.err = none) (h2 : r2.err = none) (h3 : r3.err = none) :
    AssemblePath env opts insts
      (staged env insts dir ++ invoked opts (asCall env opts dir) r1
        ++ invoked opts (ldCall env opts dir) r2
        ++ invoked opts (objcopyCall env opts dir) r3
        ++ [Event.readFile (env.join dir (str "insts.bin")) data none], some data)

/-- The runs of `disassemble` on the text `mcode`: the trace and whether the
function returned, on each of its paths. -/
inductive DisassemblePath (env : Env) (opts : Opts) (mcode : GoString) :
    List Event × Option Unit → Prop where
  /-- The call of `TempDir` failed. -/
  | noDir (dir e : GoString) :
    DisassemblePath env opts mcode
      ([Event.tempDir dir (some e), Event.stderrln (Diag.err e), Event.exit 1], none)
  /-- A token did not parse. -/
  | badToken (dir token : GoString) (e : NumError)
      (hp : pack mcode = .error (.format token e)) :
    DisassemblePath env opts mcode
      ([Event.tempDir dir none, Event.stderrln (Diag.numError token e), Event.exit 1], none)
  /-- Writing the buffer failed. -/
  | noBuffer (dir : GoString) (buf : List Byte) (e : GoString) (hp : pack mcode = .ok buf) :
    DisassemblePath env opts mcode
      ([Event.tempDir dir none, Event.writeFile (env.join dir (str "insts.bin")) buf (some e),
        Event.stderrln (Diag.err e), Event.exit 1], none)
  /-- The disassembler failed. -/
  | objdumpFailed (dir : GoString) (buf : List Byte) (r : RunResult) (e : GoString)
      (hp : pack mcode = .ok buf) (h : r.err = some e) :
    DisassemblePath env opts mcode
      ([Event.tempDir dir none, Event.writeFile (env.join dir (str "insts.bin")) buf none]
        ++ invoked opts (objdumpCall env opts dir) r ++ aborted r e, none)
  /-- The disassembly was printed. -/
  | printed (dir : GoString) (buf : List Byte) (r : RunResult)
      (hp : pack mcode = .ok buf) (h : r.err = none) :
    DisassemblePath env opts mcode
      ([Event.tempDir dir none, Event.writeFile (env.join dir (str "insts.bin")) buf none]
        ++ invoked opts (objdumpCall env opts dir) r ++ [Event.println r.stdout], some ())

/-! ## Views of a trace -/

/-- The calls of `ioutil.TempDir`. -/
def Event.isTempDir : Event → Bool
  | .tempDir _ _ => true
  | _ => false

/-- The recursive deletions. -/
def Event.isRemoveAll : Event → Bool
  | .removeAll _ => true
  | _ => false

/-- The calls of `ioutil.WriteFile`. -/
def Event.isWriteFile : Event → Bool
  | .writeFile _ _ _ => true
  | _ => false

/-- The tool invocations. -/
def Event.isRun : Event → Bool
  | .run _ _ _ => true
  | _ => false

/-- The events the order of an encode run is about: tool invocations, the read of
the extracted image, the tokens printed, and the exit. -/
def Event.isPipeline : Event → Bool
  | .run _ _ _ => true
  | .readFile _ _ _ => true
  | .token _ => true
  | .exit _ => true
  | _ => false

/-- The pipeline events of a trace, in order. -/
def pipelineView (t : List Event) : List Event := t.filter Event.isPipeline

/-! ## An environment for the concrete runs -/

/-- An environment in which every call succeeds: the staging directory is
`/tmp/asm1`, paths are joined with `/`, the tools print `out`, and the extracted
image is the six bytes `01 00 00 00 02 00`. -/
def calmEnv : Env where
  join a b := a ++ str "/" ++ b
  tempDir _ := (str "/tmp/asm1", none)
  writeFile _ _ _ := none
  readFile _ _ := ([1, 0, 0, 0, 2, 0], none)
  run _ _ _ := ⟨str "out", [], none⟩

/-- The options of a run without flags: prefix `arm-none-eabi`. -/
def defaultOpts : Opts where
  AsArgs := []
  LdArgs := []
  Machine := []
  Prefix := str "arm-none-eabi"
  Verbose := false

/-! ## The text of an aligned image -/

/-- The text printed for 32-bit words: each in hex, followed by a newline. -/
def hexLines (vs : List Nat) : GoString :=
  (vs.map (fun v => fmtHex v ++ str "\n")).flatten

/-- The values of the 32-bit words of an image, in order. -/
def wordValues : List Byte → List Nat
  | b0 :: b1 :: b2 :: b3 :: rest => leUint32 b0 b1 b2 b3 :: wordValues rest
  | _ => []

/-! # Theorems -/

/-! ## Lemmas on the little-endian conversions -/

theorem or_shiftLeft_eq (a b i : Nat) (h : a < 2 ^ i) : a ||| b <<< i = a + 2 ^ i * b := by
  rw [Nat.shiftLeft_eq, Nat.mul_comm b, Nat.or_comm, Nat.add_comm]
  exact (Nat.mul_add_lt_is_or h b).symm

theorem leUint16_eq (b0 b1 : Byte) : leUint16 b0 b1 = b0.val + 2 ^ 8 * b1.val :=
  or_shiftLeft_eq b0.val b1.val 8 b0.isLt

theorem leUint32_eq (b0 b1 b2 b3 : Byte) :
    leUint32 b0 b1 b2 b3 = b0.val + 2 ^ 8 * b1.val + 2 ^ 16 * b2.val + 2 ^ 24 * b3.val := by
  have h0 := b0.isLt
  have h1 := b1.isLt
  have h2 := b2.isLt
  unfold leUint32
  rw [or_shiftLeft_eq b0.val b1.val 8 h0,
    or_shiftLeft_eq (b0.val + 2 ^ 8 * b1.val) b2.val 16 (by omega),
    or_shiftLeft_eq (b0.val + 2 ^ 8 * b1.val + 2 ^ 16 * b2.val) b3.val 24 (by omega)]

theorem leBytes16_leUint16 (b0 b1 : Byte) : leBytes16 (leUint16 b0 b1) = [b0, b1] := by
  rw [leUint16_eq]
  have h0 := b0.isLt
  have h1 := b1.isLt
  simp only [leBytes16, byte, Nat.shiftRight_eq_div_pow]
  congr 1
  · apply Fin.ext; simp only; omega
  · congr 1; apply Fin.ext; simp only; omega

theorem leBytes32_leUint32 (b0 b1 b2 b3 : Byte) :
    leBytes32 (leUint32 b0 b1 b2 b3) = [b0, b1, b2, b3] := by
  rw [leUint32_eq]
  have h0 := b0.isLt
  have h1 := b1.isLt
  have h2 := b2.isLt
  have h3 := b3.isLt
  simp only [leBytes32, byte, Nat.shiftRight_eq_div_pow]
  congr 1
  · apply Fin.ext; simp only; omega
  · congr 1
    · apply Fin.ext; simp only; omega
    · congr 1
      · apply Fin.ext; simp only; omega
      · congr 1; apply Fin.ext; simp only; omega

/-! ## The chunking loop -/

theorem emitTokens_cons4 (b0 b1 b2 b3 : Byte) (rest : List Byte) :
    emitTokens (b0 :: b1 :: b2 :: b3 :: rest)
      = Token.word32 (leUint32 b0 b1 b2 b3) :: emitTokens rest := by
  simp [emitTokens, emitWords]

/-- Every list splits into groups of four and a rest shorter than four. -/
theorem list_by_fours {P : List Byte → Prop}
    (short : ∀ l : List Byte, l.length < 4 → P l)
    (step : ∀ (b0 b1 b2 b3 : Byte) (rest : List Byte), P rest → P (b0 :: b1 :: b2 :: b3 :: rest))
    (l : List Byte) : P l := by
  induction l using emitWords.induct with
  | case1 b0 b1 b2 b3 rest ih => exact step b0 b1 b2 b3 rest ih
  | case2 data h =>
    apply short
    match data, h with
    | [], _ => simp
    | [_], _ => simp
    | [_, _], _ => simp
    | [_, _, _], _ => simp
    | b0 :: b1 :: b2 :: b3 :: rest, h => exact absurd rfl (h b0 b1 b2 b3 rest)

theorem emitTokens_bytes (B : List Byte) :
    ((emitTokens B).map Token.bytes).flatten = B := by
  induction B using list_by_fours with
  | short l h =>
    match l, h with
    | [], _ => rfl
    | [a], _ => rfl
    | [a, b], _ => simp [emitTokens, emitWords, emitHalf, emitTail, Token.bytes, leBytes16_leUint16]
    | [a, b, c], _ => simp [emitTokens, emitWords, emitHalf, emitTail, Token.bytes, leBytes16_leUint16]
    | _ :: _ :: _ :: _ :: _, h => simp at h; omega
  | step b0 b1 b2 b3 rest ih =>
    rw [emitTokens_cons4]
    simp [Token.bytes, leBytes32_leUint32, ih]

theorem expectedTokens_cons4 (b0 b1 b2 b3 : Byte) (rest : List Byte) :
    expectedTokens (b0 :: b1 :: b2 :: b3 :: rest)
      = Token.word32 (leUint32 b0 b1 b2 b3) :: expectedTokens rest := by
  have hl : (b0 :: b1 :: b2 :: b3 :: rest).length = rest.length + 4 := by simp
  have hd : (rest.length + 4) / 4 = rest.length / 4 + 1 := by omega
  have hm : (rest.length + 4) % 4 = rest.length % 4 := by omega
  have hg : ∀ k, (b0 :: b1 :: b2 :: b3 :: rest).getD (k + 4) 0 = rest.getD k 0 := by
    intro k; simp [List.getD_cons_succ]
  have e1 : ∀ i, 4 * (i + 1) = 4 * i + 4 := by intro i; omega
  have e2 : ∀ i, 4 * (i + 1) + 1 = 4 * i + 1 + 4 := by intro i; omega
  have e3 : ∀ i, 4 * (i + 1) + 2 = 4 * i + 2 + 4 := by intro i; omega
  have e4 : ∀ i, 4 * (i + 1) + 3 = 4 * i + 3 + 4 := by intro i; omega
  have e5 : rest.length % 4 = 1 ∨ rest.length % 4 = 3 → rest.length + 4 - 1 = rest.length - 1 + 4 := by
    intro h; omega
  unfold expectedTokens
  rw [hl, hd, hm, List.range_succ_eq_map]
  simp only [List.map_cons, List.map_map, List.cons_append, Function.comp_def, Nat.succ_eq_add_one,
    e1, e2, e3, e4, hg]
  congr 1
  congr 1
  split
  · rename_i h; rw [e5 h, hg]
  · rfl

theorem emitTokens_eq_expected (B : List Byte) : emitTokens B = expectedTokens B := by
  induction B using list_by_fours with
  | short l h =>
    match l, h with
    | [], _ => rfl
    | [a], _ => simp [emitTokens, emitWords, emitHalf, emitTail, expectedTokens]
    | [a, b], _ => simp [emitTokens, emitWords, emitHalf, emitTail, expectedTokens]
    | [a, b, c], _ => simp [emitTokens, emitWords, emitHalf, emitTail, expectedTokens]
    | _ :: _ :: _ :: _ :: _, h => simp at h; omega
  | step b0 b1 b2 b3 rest ih =>
    rw [emitTokens_cons4, expectedTokens_cons4, ih]

/-! ## `strconv.ParseUint` at base 16 and 32 bits -/

set_option maxRecDepth 100000 in
theorem digitVal_hex : ∀ c : Byte, isHexDigit c → digitVal c = some (hexDigitVal c) := by
  decide

set_option maxRecDepth 100000 in
theorem digitVal_not_hex : ∀ c : Byte, ¬ isHexDigit c → 16 ≤ (digitVal c).getD 16 := by
  decide

set_option maxRecDepth 100000 in
theorem hexDigitVal_lt : ∀ c : Byte, hexDigitVal c < 16 := by
  decide

theorem hexValFrom_cons (n : Nat) (c : Byte) (cs : GoString) :
    hexValFrom n (c :: cs) = hexValFrom (16 * n + hexDigitVal c) cs := rfl

theorem le_hexValFrom (s : GoString) : ∀ n, n ≤ hexValFrom n s := by
  induction s with
  | nil => intro n; exact Nat.le_refl n
  | cons c cs ih =>
    intro n
    rw [hexValFrom_cons]
    have := ih (16 * n + hexDigitVal c)
    omega

theorem parseUintLoop_ok (s : GoString) : ∀ n, n < 2 ^ 32 → (∀ c ∈ s, isHexDigit c) →
    hexValFrom n s < 2 ^ 32 →
    parseUintLoop 16 ((2 ^ 64 - 1) / 16 + 1) (2 ^ 32 - 1) s n = .ok (hexValFrom n s) := by
  induction s with
  | nil => intro n _ _ _; rfl
  | cons c cs ih =>
    intro n hn hs hv
    have hc : isHexDigit c := hs c (List.mem_cons_self c cs)
    have hd := hexDigitVal_lt c
    rw [hexValFrom_cons] at hv ⊢
    have hle := le_hexValFrom cs (16 * n + hexDigitVal c)
    have h1 : (n * 16) % 2 ^ 64 = 16 * n := by omega
    have h2 : (16 * n + hexDigitVal c) % 2 ^ 64 = 16 * n + hexDigitVal c := by omega
    simp only [parseUintLoop, digitVal_hex c hc, h1, h2]
    rw [if_neg (by omega), if_neg (by omega), if_neg (by omega)]
    exact ih _ (by omega) (fun x hx => hs x (List.mem_cons_of_mem c hx)) hv

theorem parseUintLoop_error (s : GoString) : ∀ n, n < 2 ^ 32 →
    ((∃ c ∈ s, ¬ isHexDigit c) ∨ 2 ^ 32 ≤ hexValFrom n s) →
    ∃ e, parseUintLoop 16 ((2 ^ 64 - 1) / 16 + 1) (2 ^ 32 - 1) s n = .error e := by
  induction s with
  | nil =>
    intro n hn h
    rcases h with ⟨c, hc, _⟩ | h
    · simp at hc
    · simp [hexValFrom] at h; omega
  | cons c cs ih =>
    intro n hn h
    by_cases hc : isHexDigit c
    · have hd := hexDigitVal_lt c
      have h1 : (n * 16) % 2 ^ 64 = 16 * n := by omega
      have h2 : (16 * n + hexDigitVal c) % 2 ^ 64 = 16 * n + hexDigitVal c := by omega
      simp only [parseUintLoop, digitVal_hex c hc, h1, h2]
      rw [if_neg (by omega), if_neg (by omega)]
      by_cases hbig : 2 ^ 32 - 1 < 16 * n + hexDigitVal c
      · rw [if_pos (Or.inr hbig)]; exact ⟨_, rfl⟩
      · rw [if_neg (by omega)]
        apply ih _ (by omega)
        rcases h with ⟨x, hx, hnx⟩ | h
        · left
          rcases List.mem_cons.mp hx with rfl | hx
          · exact absurd hc hnx
          · exact ⟨x, hx, hnx⟩
        · right; rw [hexValFrom_cons] at h; exact h
    · have hnh := digitVal_not_hex c hc
      cases hdv : digitVal c with
      | none => simp only [parseUintLoop, hdv]; exact ⟨_, rfl⟩
      | some d =>
        rw [hdv] at hnh
        simp only [Option.getD_some] at hnh
        simp only [parseUintLoop, hdv]
        rw [if_pos hnh]; exact ⟨_, rfl⟩

theorem parseUint_ok (s : GoString) (hne : s ≠ []) (h : ¬ badToken s) :
    parseUint s = .ok (hexVal s) ∧ hexVal s < 2 ^ 32 := by
  unfold badToken at h
  have hall : ∀ c ∈ s, isHexDigit c := by
    intro c hc; by_contra hn; exact h (Or.inl ⟨c, hc, hn⟩)
  have hv : hexVal s < 2 ^ 32 := by
    by_contra hn; exact h (Or.inr (by omega))
  refine ⟨?_, hv⟩
  unfold parseUint
  rw [if_neg hne]
  exact parseUintLoop_ok s 0 (by decide) hall hv

theorem parseUint_error (s : GoString) (h : badToken s ∨ s = []) :
    ∃ e, parseUint s = .error e := by
  unfold parseUint
  by_cases hne : s = []
  · rw [if_pos hne]; exact ⟨_, rfl⟩
  · rw [if_neg hne]
    rcases h with h | h
    · exact parseUintLoop_error s 0 (by decide) h
    · exact absurd h hne

/-! ## The packing loop -/

theorem putUint32_eq (buf : List Byte) (v : Nat) (h : 4 ≤ buf.length) :
    putUint32 buf v = some (leBytes32 v ++ buf.drop 4) := by
  unfold putUint32; rw [if_pos h]

theorem leBytes32_length (v : Nat) : (leBytes32 v).length = 4 := rfl

/-- On tokens that all parse, the loop never advances in the buffer: each value
is stored at `buf[0..3]`, so the buffer ends with the last token's value in its
first four bytes and its other bytes untouched. -/
theorem packLoop_ok (tokens : List GoString) : ∀ buf : List Byte, 4 ≤ buf.length →
    (∀ t ∈ tokens, t ≠ [] ∧ ¬ badToken t) →
    packLoop tokens buf = .ok (match tokens.getLast? with
      | none => buf
      | some t => leBytes32 (hexVal t) ++ buf.drop 4) := by
  induction tokens with
  | nil => intro buf _ _; rfl
  | cons t ts ih =>
    intro buf hb hall
    obtain ⟨hne, hgood⟩ := hall t (List.mem_cons_self t ts)
    obtain ⟨hp, hv⟩ := parseUint_ok t hne hgood
    have hmod : hexVal t % 2 ^ 32 = hexVal t := Nat.mod_eq_of_lt hv
    have hlen : 4 ≤ (leBytes32 (hexVal t) ++ buf.drop 4).length := by
      simp [leBytes32_length]
    have hdrop : (leBytes32 (hexVal t) ++ buf.drop 4).drop 4 = buf.drop 4 := by
      simp [leBytes32]
    simp only [packLoop, hp, hmod, putUint32_eq buf _ hb]
    rw [ih _ hlen (fun x hx => hall x (List.mem_cons_of_mem t hx)), hdrop]
    cases ts with
    | nil => rfl
    | cons u us =>
      rw [List.getLast?_cons_cons, List.getLast?_eq_getLast (u :: us) (List.cons_ne_nil u us)]

theorem packLoop_error (tokens : List GoString) : ∀ buf : List Byte, 4 ≤ buf.length →
    (∃ t ∈ tokens, badToken t ∨ t = []) →
    ∃ tok e, packLoop tokens buf = .error (.format tok e) := by
  induction tokens with
  | nil => intro buf _ h; obtain ⟨t, ht, _⟩ := h; simp at ht
  | cons t ts ih =>
    intro buf hb h
    by_cases hbad : badToken t ∨ t = []
    · obtain ⟨e, he⟩ := parseUint_error t hbad
      exact ⟨t, e, by simp only [packLoop, he]⟩
    · have hne : t ≠ [] := fun h0 => hbad (Or.inr h0)
      have hgood : ¬ badToken t := fun h0 => hbad (Or.inl h0)
      obtain ⟨hp, hv⟩ := parseUint_ok t hne hgood
      have hlen : 4 ≤ (leBytes32 (hexVal t % 2 ^ 32) ++ buf.drop 4).length := by
        simp [leBytes32_length]
      simp only [packLoop, hp, putUint32_eq buf _ hb]
      apply ih _ hlen
      obtain ⟨x, hx, hxbad⟩ := h
      rcases List.mem_cons.mp hx with rfl | hx
      · exact absurd hxbad hbad
      · exact ⟨x, hx, hxbad⟩

theorem splitLines_ne_nil (s : GoString) : splitLines s ≠ [] := by
  induction s with
  | nil => simp [splitLines]
  | cons c cs ih =>
    unfold splitLines
    split
    · simp
    · split
      · simp
      · simp

theorem replicate_len_ge (tokens : List GoString) (h : tokens ≠ []) :
    4 ≤ (List.replicate (4 * tokens.length) (0 : Byte)).length := by
  have : 0 < tokens.length := List.length_pos.mpr h
  simp; omega

/-! ## The digits written by `fmt` -/

theorem fmtIntegerLoop_acc (base : Nat) (fuel : Nat) : ∀ (u : Nat) (acc : GoString),
    fmtIntegerLoop base fuel u acc = fmtIntegerLoop base fuel u [] ++ acc := by
  induction fuel with
  | zero => intro u acc; rfl
  | succ f ih =>
    intro u acc
    unfold fmtIntegerLoop
    by_cases h : base ≤ u
    · rw [if_pos h, if_pos h, ih (u / base) (ldigit (u % base) :: acc),
        ih (u / base) [ldigit (u % base)]]
      simp
    · rw [if_neg h, if_neg h]; rfl

theorem fmtIntegerLoop_fuel (base : Nat) (hb : 2 ≤ base) (f1 : Nat) : ∀ (f2 u : Nat),
    u ≤ f1 → u ≤ f2 → fmtIntegerLoop base f1 u [] = fmtIntegerLoop base f2 u [] := by
  induction f1 with
  | zero =>
    intro f2 u h1 _
    have hu : u = 0 := by omega
    subst hu
    cases f2 with
    | zero => rfl
    | succ g => unfold fmtIntegerLoop; rw [if_neg (by omega)]
  | succ f ih =>
    intro f2 u h1 h2
    cases f2 with
    | zero =>
      have hu : u = 0 := by omega
      subst hu
      unfold fmtIntegerLoop; rw [if_neg (by omega)]
    | succ g =>
      unfold fmtIntegerLoop
      by_cases h : base ≤ u
      · have hdiv : u / base < u := Nat.div_lt_self (by omega) (by omega)
        rw [if_pos h, if_pos h, fmtIntegerLoop_acc base f, fmtIntegerLoop_acc base g,
          ih g (u / base) (by omega) (by omega)]
      · rw [if_neg h, if_neg h]

theorem fmtInteger_lt (base u : Nat) (h : u < base) : fmtInteger base u = [ldigit u] := by
  unfold fmtInteger
  cases u with
  | zero => rfl
  | succ n => unfold fmtIntegerLoop; rw [if_neg (by omega)]

theorem fmtInteger_ge (base u : Nat) (hb : 2 ≤ base) (h : base ≤ u) :
    fmtInteger base u = fmtInteger base (u / base) ++ [ldigit (u % base)] := by
  unfold fmtInteger
  have hdiv : u / base < u := Nat.div_lt_self (by omega) (by omega)
  cases u with
  | zero => omega
  | succ n =>
    rw [fmtIntegerLoop]
    rw [if_pos h, fmtIntegerLoop_acc base n,
      fmtIntegerLoop_fuel base hb n ((n + 1) / base) ((n + 1) / base) (by omega) (Nat.le_refl _)]

theorem ldigit_facts : ∀ d : Fin 16,
    isLowerHexDigit (ldigit d.val) ∧ isHexDigit (ldigit d.val) ∧
      hexDigitVal (ldigit d.val) = d.val ∧ (ldigit d.val = 48 → d.val = 0) := by
  decide

theorem hexValFrom_append (n : Nat) (xs : GoString) (c : Byte) :
    hexValFrom n (xs ++ [c]) = 16 * hexValFrom n xs + hexDigitVal c := by
  simp [hexValFrom, List.foldl_append]

theorem fmtHex_small (u : Nat) (hu16 : u < 16) :
    (fmtHex u).length = 1 ∧
      (∀ c ∈ fmtHex u, isLowerHexDigit c ∧ isHexDigit c) ∧ hexVal (fmtHex u) = u ∧
      (fmtHex u = [48] ∧ u = 0 ∨ (fmtHex u).head? ≠ some 48) := by
  have hf := ldigit_facts ⟨u, hu16⟩
  simp only at hf
  unfold fmtHex
  rw [fmtInteger_lt 16 u hu16]
  refine ⟨by simp, ?_, ?_, ?_⟩
  · intro c hc
    rw [List.mem_singleton] at hc
    subst hc; exact ⟨hf.1, hf.2.1⟩
  · simp [hexVal, hexValFrom, hf.2.2.1]
  · by_cases h0 : ldigit u = 48
    · left; exact ⟨by rw [h0], hf.2.2.2 h0⟩
    · right; simpa using h0

/-- What `%x` writes for `u < 16 ^ (k + 1)`: between one and `k + 1` lowercase
hex digits that read back as `u`, and no leading zero unless `u = 0`. -/
theorem fmtHex_spec (k : Nat) : ∀ u, u < 16 ^ (k + 1) →
    1 ≤ (fmtHex u).length ∧ (fmtHex u).length ≤ k + 1 ∧
      (∀ c ∈ fmtHex u, isLowerHexDigit c ∧ isHexDigit c) ∧ hexVal (fmtHex u) = u ∧
      (fmtHex u = [48] ∧ u = 0 ∨ (fmtHex u).head? ≠ some 48) := by
  induction k with
  | zero =>
    intro u hu
    obtain ⟨h1, h2, h3, h4⟩ := fmtHex_small u (by omega)
    exact ⟨by omega, by omega, h2, h3, h4⟩
  | succ k ih =>
    intro u hu
    by_cases hu16 : u < 16
    · obtain ⟨h1, h2, h3, h4⟩ := fmtHex_small u hu16
      exact ⟨by omega, by omega, h2, h3, h4⟩
    · have hge : 16 ≤ u := by omega
      have hdiv : u / 16 < 16 ^ (k + 1) := by
        rw [Nat.div_lt_iff_lt_mul (by decide)]
        calc u < 16 ^ (k + 1 + 1) := hu
          _ = 16 ^ (k + 1) * 16 := Nat.pow_succ 16 (k + 1)
      obtain ⟨h1, h2, h3, h4, h5⟩ := ih (u / 16) hdiv
      have hf := ldigit_facts ⟨u % 16, Nat.mod_lt u (by decide)⟩
      simp only at hf
      have hunf : fmtHex u = fmtHex (u / 16) ++ [ldigit (u % 16)] :=
        fmtInteger_ge 16 u (by decide) hge
      rw [hunf]
      refine ⟨by simp, by simp; omega, ?_, ?_, ?_⟩
      · intro c hc
        rcases List.mem_append.mp hc with hc | hc
        · exact h3 c hc
        · rw [List.mem_singleton] at hc
          subst hc; exact ⟨hf.1, hf.2.1⟩
      · unfold hexVal at h4 ⊢
        rw [hexValFrom_append, h4, hf.2.2.1]; omega
      · right
        rcases h5 with ⟨_, h0⟩ | h5
        · omega
        · cases hx : fmtHex (u / 16) with
          | nil => rw [hx] at h1; simp at h1
          | cons a as => rw [hx] at h5; simpa using h5

theorem packLoop_no_panic (tokens : List GoString) : ∀ buf : List Byte, 4 ≤ buf.length →
    packLoop tokens buf ≠ .error .indexOutOfRange := by
  induction tokens with
  | nil => intro buf _ h; simp [packLoop] at h
  | cons t ts ih =>
    intro buf hb
    have hlen : ∀ v, 4 ≤ (leBytes32 v ++ buf.drop 4).length := by
      intro v; simp [leBytes32_length]
    unfold packLoop
    cases hp : parseUint t with
    | error e => simp
    | ok u =>
      simp only [putUint32_eq buf _ hb]
      exact ih _ (hlen _)

theorem pack_no_panic (mcode : GoString) : pack mcode ≠ .error .indexOutOfRange :=
  packLoop_no_panic _ _ (replicate_len_ge _ (splitLines_ne_nil mcode))

/-! ## The runs of the pipelines, path by path -/

theorem run_bind {α β : Type} (m : Run α) (f : α → Run β) (t : List Event) :
    (m >>= f) t = match m t with
      | (t1, some a) => f a t1
      | (t1, none) => (t1, none) := rfl

theorem run_pure {α : Type} (a : α) (t : List Event) : (pure a : Run α) t = (t, some a) := rfl

theorem docmd_cases (env : Env) (opts : Opts) (call : GoString × List GoString)
    (t : List Event) :
    ∃ r : RunResult,
      (r.err = none ∧ docmd env opts call.1 call.2 t = (t ++ invoked opts call r, some r.stdout)) ∨
      (∃ e, r.err = some e ∧
        docmd env opts call.1 call.2 t = (t ++ invoked opts call r ++ aborted r e, none)) := by
  by_cases hv : opts.Verbose = true
  · refine ⟨env.run (t ++ [Event.verbose call.1 call.2]) call.1 call.2, ?_⟩
    cases he : (env.run (t ++ [Event.verbose call.1 call.2]) call.1 call.2).err with
    | none => left; simp [docmd, invoked, hv, he]
    | some e => right; exact ⟨e, rfl, by simp [docmd, invoked, aborted, hv, he]⟩
  · refine ⟨env.run t call.1 call.2, ?_⟩
    cases he : (env.run t call.1 call.2).err with
    | none => left; simp [docmd, invoked, hv, he]
    | some e => right; exact ⟨e, rfl, by simp [docmd, invoked, aborted, hv, he]⟩

theorem assemble_path (env : Env) (opts : Opts) (insts : GoString) :
    AssemblePath env opts insts (assemble env opts insts []) := by
  unfold assemble
  simp only [run_bind, run_pure, ioTempDir, ioWriteFile, ioReadFile]
  generalize env.tempDir [] = d
  obtain ⟨dir, derr⟩ := d
  cases derr with
  | some e => exact AssemblePath.noDir dir e
  | none =>
    simp only [must, Option.map_none', List.nil_append]
    generalize env.writeFile _ (env.join dir (str "insts.s")) insts = w1
    cases w1 with
    | some e => exact AssemblePath.noSource dir e
    | none =>
      simp only [Option.map_none', List.cons_append, List.nil_append]
      generalize env.writeFile _ (env.join dir (str "memmap.ld")) memmap = w2
      cases w2 with
      | some e => exact AssemblePath.noScript dir e
      | none =>
        simp only [Option.map_none']
        obtain ⟨r1, h1 | ⟨e, h1, hd1⟩⟩ := docmd_cases env opts (asCall env opts dir)
          (staged env insts dir)
        · obtain ⟨h1, hd1⟩ := h1
          simp only [staged] at hd1
          simp only [hd1]
          obtain ⟨r2, h2 | ⟨e, h2, hd2⟩⟩ := docmd_cases env opts (ldCall env opts dir)
            (staged env insts dir ++ invoked opts (asCall env opts dir) r1)
          · obtain ⟨h2, hd2⟩ := h2
            simp only [staged] at hd2
            simp only [hd2]
            obtain ⟨r3, h3 | ⟨e, h3, hd3⟩⟩ := docmd_cases env opts (objcopyCall env opts dir)
              (staged env insts dir ++ invoked opts (asCall env opts dir) r1
                ++ invoked opts (ldCall env opts dir) r2)
            · obtain ⟨h3, hd3⟩ := h3
              simp only [staged] at hd3
              simp only [hd3]
              generalize env.readFile _ (env.join dir (str "insts.bin")) = rd
              obtain ⟨data, rerr⟩ := rd
              cases rerr with
              | some e =>
                have := @AssemblePath.noImage env opts insts dir r1 r2 r3 data e h1 h2 h3
                simpa [staged] using this
              | none =>
                have := @AssemblePath.image env opts insts dir r1 r2 r3 data h1 h2 h3
                simpa [staged] using this
            · simp only [staged] at hd3
              simp only [hd3]
              exact AssemblePath.objcopyFailed dir r1 r2 r3 e h1 h2 h3
          · simp only [staged] at hd2
            simp only [hd2]
            exact AssemblePath.ldFailed dir r1 r2 e h1 h2
        · simp only [staged] at hd1
          simp only [hd1]
          exact AssemblePath.asFailed dir r1 e h1

theorem disassemble_path (env : Env) (opts : Opts) (mcode : GoString) :
    DisassemblePath env opts mcode (disassemble env opts mcode []) := by
  unfold disassemble
  have hlen : ¬ (splitLines mcode).length = 0 := by
    intro h; exact splitLines_ne_nil mcode (List.length_eq_zero.mp h)
  simp only [if_neg hlen, run_bind, ioTempDir, ioWriteFile]
  generalize env.tempDir [] = d
  obtain ⟨dir, derr⟩ := d
  cases derr with
  | some e => exact DisassemblePath.noDir dir e
  | none =>
    simp only [must, Option.map_none', List.nil_append, packRun]
    cases hp : packLoop (splitLines mcode) (List.replicate (4 * (splitLines mcode).length) 0) with
    | error err =>
      cases err with
      | format token e => exact DisassemblePath.badToken dir token e hp
      | indexOutOfRange => exact absurd hp (pack_no_panic mcode)
    | ok buf =>
      simp only []
      generalize env.writeFile _ (env.join dir (str "insts.bin")) buf = w1
      cases w1 with
      | some e => exact DisassemblePath.noBuffer dir buf e hp
      | none =>
        simp only [Option.map_none']
        obtain ⟨r, h | ⟨e, h, hd⟩⟩ := docmd_cases env opts (objdumpCall env opts dir)
          [Event.tempDir dir none, Event.writeFile (env.join dir (str "insts.bin")) buf none]
        · obtain ⟨h, hd⟩ := h
          simp only [List.cons_append, List.nil_append] at hd
          simp only [List.cons_append, List.nil_append, hd]
          have := @DisassemblePath.printed env opts mcode dir buf r hp h
          simpa using this
        · simp only [List.cons_append, List.nil_append] at hd
          simp only [List.cons_append, List.nil_append, hd]
          have := @DisassemblePath.objdumpFailed env opts mcode dir buf r e hp h
          simpa using this

/-- The runs of `emitMcode`: those of `assemble`, followed on success by the
tokens of the image. -/
theorem emitMcode_path (env : Env) (opts : Opts) (pattern : GoString) :
    (∃ t, AssemblePath env opts pattern (t, none) ∧ emitMcode env opts pattern [] = (t, none)) ∨
    (∃ t data, AssemblePath env opts pattern (t, some data) ∧
      emitMcode env opts pattern [] = (t ++ (emitTokens data).map Event.token, some ())) := by
  have hp := assemble_path env opts pattern
  unfold emitMcode
  simp only [run_bind]
  generalize assemble env opts pattern [] = res at hp
  obtain ⟨t, r⟩ := res
  cases r with
  | none => left; exact ⟨t, hp, rfl⟩
  | some data => right; exact ⟨t, data, hp, rfl⟩

/-! ## Views of a trace -/

theorem pipelineView_append (s t : List Event) :
    pipelineView (s ++ t) = pipelineView s ++ pipelineView t := by
  simp [pipelineView]

theorem pipelineView_staged (env : Env) (insts dir : GoString) :
    pipelineView (staged env insts dir) = [] := by
  simp [pipelineView, staged, Event.isPipeline]

theorem pipelineView_invoked (opts : Opts) (call : GoString × List GoString) (r : RunResult) :
    pipelineView (invoked opts call r) = [Event.run call.1 call.2 r] := by
  unfold invoked pipelineView
  split <;> simp [Event.isPipeline]

theorem pipelineView_aborted (r : RunResult) (e : GoString) :
    pipelineView (aborted r e) = [Event.exit 1] := by
  simp [pipelineView, aborted, Event.isPipeline]

theorem pipelineView_tokens (ts : List Token) :
    pipelineView (ts.map Event.token) = ts.map Event.token := by
  induction ts with
  | nil => rfl
  | cons a as ih =>
    simp only [pipelineView] at ih
    simp [pipelineView, Event.isPipeline, ih]

/-- Neither a second `TempDir` nor a deletion among the events of an invocation. -/
theorem invoked_quiet (opts : Opts) (call : GoString × List GoString) (r : RunResult) :
    (invoked opts call r).filter Event.isTempDir = [] ∧
      (invoked opts call r).any Event.isRemoveAll = false := by
  unfold invoked
  split <;> simp [Event.isTempDir, Event.isRemoveAll]

theorem assemblePath_staging (env : Env) (opts : Opts) (insts : GoString)
    (res : List Event × Option (List Byte)) (h : AssemblePath env opts insts res) :
    (∃ dir err, res.1.head? = some (Event.tempDir dir err)) ∧
      (res.1.filter Event.isTempDir).length = 1 ∧ res.1.any Event.isRemoveAll = false := by
  cases h <;>
    simp [staged, aborted, invoked_quiet, List.filter_append, List.any_append, Event.isTempDir,
      Event.isRemoveAll]

theorem disassemblePath_staging (env : Env) (opts : Opts) (mcode : GoString)
    (res : List Event × Option Unit) (h : DisassemblePath env opts mcode res) :
    (∃ dir err, res.1.head? = some (Event.tempDir dir err)) ∧
      (res.1.filter Event.isTempDir).length = 1 ∧ res.1.any Event.isRemoveAll = false := by
  cases h <;>
    simp [aborted, invoked_quiet, List.filter_append, List.any_append, Event.isTempDir,
      Event.isRemoveAll]

/-! ## The claims: chunking, staging, tool order -/

/-- C1. The tokens `emitMcode` emits for an image `B` account for exactly the
bytes of `B`, in order: storing each 32-bit value back as 4 little-endian bytes,
the 16-bit value as 2, the tail as it is, and concatenating gives `B`; the byte
counts of the tokens add up to `len(B)`. -/
theorem emitMcode_tokens_account_for_image (B : List Byte) :
    ((emitTokens B).map Token.bytes).flatten = B ∧
      ((emitTokens B).map (fun t => t.bytes.length)).sum = B.length := by
  have h := emitTokens_bytes B
  refine ⟨h, ?_⟩
  have hl := congrArg List.length h
  rw [List.length_flatten, List.map_map] at hl
  exact hl

/-- C5. The tokens of an image `B` of length `L` are, in this order, `L / 4`
words of 32 bits (the `i`-th read little endian at bytes `4i .. 4i+3`), one word
of 16 bits exactly when `L % 4 ≥ 2`, and one tail of a single byte exactly when
`L % 4` is 1 or 3; the empty image gives no token and three bytes give a 16-bit
word followed by a one-byte tail. -/
theorem emitMcode_token_shape (B : List Byte) :
    emitTokens B = expectedTokens B ∧ emitTokens [] = [] ∧
      ∀ a b c : Byte, emitTokens [a, b, c] = [Token.word16 (leUint16 a b), Token.tail [c]] := by
  refine ⟨emitTokens_eq_expected B, rfl, ?_⟩
  intro a b c
  rfl

/-- C7 (amended). Every run of `assemble`, `emitMcode` and `disassemble` starts
with its one call of `TempDir` and performs no deletion on any path: the staging
directory is never removed. -/
theorem staging_dir_created_once_never_deleted (env : Env) (opts : Opts) (text : GoString) :
    ((∃ dir err, (assemble env opts text []).1.head? = some (Event.tempDir dir err)) ∧
      ((assemble env opts text []).1.filter Event.isTempDir).length = 1 ∧
      (assemble env opts text []).1.any Event.isRemoveAll = false) ∧
    ((∃ dir err, (emitMcode env opts text []).1.head? = some (Event.tempDir dir err)) ∧
      ((emitMcode env opts text []).1.filter Event.isTempDir).length = 1 ∧
      (emitMcode env opts text []).1.any Event.isRemoveAll = false) ∧
    ((∃ dir err, (disassemble env opts text []).1.head? = some (Event.tempDir dir err)) ∧
      ((disassemble env opts text []).1.filter Event.isTempDir).length = 1 ∧
      (disassemble env opts text []).1.any Event.isRemoveAll = false) := by
  refine ⟨assemblePath_staging env opts text _ (assemble_path env opts text), ?_,
    disassemblePath_staging env opts text _ (disassemble_path env opts text)⟩
  rcases emitMcode_path env opts text with ⟨t, hp, he⟩ | ⟨t, data, hp, he⟩
  · rw [he]; exact assemblePath_staging env opts text _ hp
  · rw [he]
    obtain ⟨⟨dir, err, hh⟩, hc, hr⟩ := assemblePath_staging env opts text _ hp
    simp only at hh hc hr
    refine ⟨⟨dir, err, ?_⟩, ?_, ?_⟩
    · cases t with
      | nil => simp at hh
      | cons x xs => simpa using hh
    · have : ((emitTokens data).map Event.token).filter Event.isTempDir = [] := by
        simp [List.filter_eq_nil_iff, Event.isTempDir]
      simp only [List.filter_append, this, List.append_nil]
      exact hc
    · have : ((emitTokens data).map Event.token).any Event.isRemoveAll = false := by
        simp [Event.isRemoveAll]
      simp only [List.any_append, this, Bool.or_false]
      exact hr

/-- C7, counterexample. In a run of `assemble` where every call succeeds, the
staging directory `/tmp/asm1` is created and the function returns the image
with no deletion in the trace; likewise for `disassemble`. -/
theorem staging_dir_deleted_counterexample :
    (assemble calmEnv defaultOpts (str "nop") []).2 = some [1, 0, 0, 0, 2, 0] ∧
    (assemble calmEnv defaultOpts (str "nop") []).1.head?
      = some (Event.tempDir (str "/tmp/asm1") none) ∧
    (assemble calmEnv defaultOpts (str "nop") []).1.any Event.isRemoveAll = false ∧
    (disassemble calmEnv defaultOpts (str "1") []).2 = some () ∧
    (disassemble calmEnv defaultOpts (str "1") []).1.any Event.isRemoveAll = false := by
  decide

/-- C8. The tool invocations, the read of the image, the tokens and the exit of
an encode run form one of six sequences: the exit alone (staging failed); the
assembler failing, then exit 1; the assembler, the linker failing, then exit 1;
the assembler, the linker, the extractor failing, then exit 1; the three tools
succeeding, the read of the image failing, then exit 1; the three tools
succeeding, the read of the image, then the tokens. So the tools run in the
order assembler, linker, extractor, each at most once; a failing invocation is
followed by exit status 1 with no later tool and no token; and the image is
read only after all three succeeded. -/
theorem encode_tools_in_order_abort_on_failure (env : Env) (opts : Opts) (pattern : GoString) :
    ∃ dir : GoString,
      (pipelineView (emitMcode env opts pattern []).1 = [Event.exit 1] ∧
        (emitMcode env opts pattern []).2 = none) ∨
      (∃ r1 : RunResult, r1.err ≠ none ∧
        pipelineView (emitMcode env opts pattern []).1
          = [Event.run (asCall env opts dir).1 (asCall env opts dir).2 r1, Event.exit 1] ∧
        (emitMcode env opts pattern []).2 = none) ∨
      (∃ r1 r2 : RunResult, r1.err = none ∧ r2.err ≠ none ∧
        pipelineView (emitMcode env opts pattern []).1
          = [Event.run (asCall env opts dir).1 (asCall env opts dir).2 r1,
              Event.run (ldCall env opts dir).1 (ldCall env opts dir).2 r2, Event.exit 1] ∧
        (emitMcode env opts pattern []).2 = none) ∨
      (∃ r1 r2 r3 : RunResult, r1.err = none ∧ r2.err = none ∧ r3.err ≠ none ∧
        pipelineView (emitMcode env opts pattern []).1
          = [Event.run (asCall env opts dir).1 (asCall env opts dir).2 r1,
              Event.run (ldCall env opts dir).1 (ldCall env opts dir).2 r2,
              Event.run (objcopyCall env opts dir).1 (objcopyCall env opts dir).2 r3,
              Event.exit 1] ∧
        (emitMcode env opts pattern []).2 = none) ∨
      (∃ (r1 r2 r3 : RunResult) (data : List Byte) (e : GoString),
        r1.err = none ∧ r2.err = none ∧ r3.err = none ∧
        pipelineView (emitMcode env opts pattern []).1
          = [Event.run (asCall env opts dir).1 (asCall env opts dir).2 r1,
              Event.run (ldCall env opts dir).1 (ldCall env opts dir).2 r2,
              Event.run (objcopyCall env opts dir).1 (objcopyCall env opts dir).2 r3,
              Event.readFile (env.join dir (str "insts.bin")) data (some e), Event.exit 1] ∧
        (emitMcode env opts pattern []).2 = none) ∨
      (∃ (r1 r2 r3 : RunResult) (data : List Byte),
        r1.err = none ∧ r2.err = none ∧ r3.err = none ∧
        pipelineView (emitMcode env opts pattern []).1
          = [Event.run (asCall env opts dir).1 (asCall env opts dir).2 r1,
              Event.run (ldCall env opts dir).1 (ldCall env opts dir).2 r2,
              Event.run (objcopyCall env opts dir).1 (objcopyCall env opts dir).2 r3,
              Event.readFile (env.join dir (str "insts.bin")) data none]
            ++ (emitTokens data).map Event.token ∧
        (emitMcode env opts pattern []).2 = some ()) := by
  rcases emitMcode_path env opts pattern with ⟨t, hp, he⟩ | ⟨t, data, hp, he⟩
  · rw [he]
    generalize hres : (t, (none : Option (List Byte))) = res at hp
    cases hp with
    | noDir dir e =>
      injection hres with h1 h2; subst h1
      exact ⟨dir, Or.inl ⟨by simp [pipelineView, Event.isPipeline], rfl⟩⟩
    | noSource dir e =>
      injection hres with h1 h2; subst h1
      exact ⟨dir, Or.inl ⟨by simp [pipelineView, Event.isPipeline], rfl⟩⟩
    | noScript dir e =>
      injection hres with h1 h2; subst h1
      exact ⟨dir, Or.inl ⟨by simp [pipelineView, Event.isPipeline], rfl⟩⟩
    | asFailed dir r1 e h1 =>
      injection hres with h1' h2; subst h1'
      refine ⟨dir, Or.inr (Or.inl ⟨r1, by simp [h1], ?_, rfl⟩)⟩
      simp [pipelineView_append, pipelineView_staged, pipelineView_invoked, pipelineView_aborted]
    | ldFailed dir r1 r2 e h1 h2 =>
      injection hres with h1' h2'; subst h1'
      refine ⟨dir, Or.inr (Or.inr (Or.inl ⟨r1, r2, h1, by simp [h2], ?_, rfl⟩))⟩
      simp [pipelineView_append, pipelineView_staged, pipelineView_invoked, pipelineView_aborted]
    | objcopyFailed dir r1 r2 r3 e h1 h2 h3 =>
      injection hres with h1' h2'; subst h1'
      refine ⟨dir, Or.inr (Or.inr (Or.inr (Or.inl ⟨r1, r2, r3, h1, h2, by simp [h3], ?_, rfl⟩)))⟩
      simp [pipelineView_append, pipelineView_staged, pipelineView_invoked, pipelineView_aborted]
    | noImage dir r1 r2 r3 data e h1 h2 h3 =>
      injection hres with h1' h2'; subst h1'
      refine ⟨dir, Or.inr (Or.inr (Or.inr (Or.inr (Or.inl
        ⟨r1, r2, r3, data, e, h1, h2, h3, ?_, rfl⟩))))⟩
      simp only [pipelineView_append, pipelineView_staged, pipelineView_invoked]
      simp [pipelineView, Event.isPipeline]
    | image dir r1 r2 r3 data h1 h2 h3 =>
      injection hres with h1' h2'; simp at h2'
  · rw [he]
    generalize hres : (t, some data) = res at hp
    cases hp with
    | image dir r1 r2 r3 data1 h1 h2 h3 =>
      injection hres with h1' h2'
      subst h1'
      have hd : data = data1 := by simpa using h2'
      subst hd
      refine ⟨dir, Or.inr (Or.inr (Or.inr (Or.inr (Or.inr
        ⟨r1, r2, r3, data, h1, h2, h3, ?_, rfl⟩))))⟩
      simp only [pipelineView_append, pipelineView_staged, pipelineView_invoked,
        pipelineView_tokens]
      simp [pipelineView, Event.isPipeline]
    | noDir dir e => injection hres with h1' h2'; simp at h2'
    | noSource dir e => injection hres with h1' h2'; simp at h2'
    | noScript dir e => injection hres with h1' h2'; simp at h2'
    | asFailed dir r1 e h1 => injection hres with h1' h2'; simp at h2'
    | ldFailed dir r1 r2 e h1 h2 => injection hres with h1' h2'; simp at h2'
    | objcopyFailed dir r1 r2 r3 e h1 h2 h3 => injection hres with h1' h2'; simp at h2'
    | noImage dir r1 r2 r3 data e h1 h2 h3 => injection hres with h1' h2'; simp at h2'

/-- A run of `disassemble` on a text with a token that does not parse ends with
exit status 1, having written no file and invoked no tool. -/
theorem disassemble_rejected (env : Env) (opts : Opts) (mcode : GoString)
    (h : ∃ token e, pack mcode = .error (.format token e)) :
    (disassemble env opts mcode []).2 = none ∧
      (disassemble env opts mcode []).1.getLast? = some (Event.exit 1) ∧
      (disassemble env opts mcode []).1.any Event.isWriteFile = false ∧
      (disassemble env opts mcode []).1.any Event.isRun = false := by
  obtain ⟨token, e, hpk⟩ := h
  have hp := disassemble_path env opts mcode
  generalize disassemble env opts mcode [] = res at hp
  cases hp with
  | noDir dir e1 => simp [Event.isWriteFile, Event.isRun]
  | badToken dir token1 e1 hp1 => simp [Event.isWriteFile, Event.isRun]
  | noBuffer dir buf e1 hp1 => rw [hpk] at hp1; simp at hp1
  | objdumpFailed dir buf r e1 hp1 h1 => rw [hpk] at hp1; simp at hp1
  | printed dir buf r hp1 h1 => rw [hpk] at hp1; simp at hp1

/-- C2, the code at the failing input. For the text `1\n2` the loop stores both
values at `buf[0..3]`: the buffer is `02 00 00 00 00 00 00 00`, not
`01 00 00 00 02 00 00 00`, and that is the buffer `disassemble` writes. -/
theorem pack_one_two_overwrites_first_word :
    splitLines (str "1\n2") = [str "1", str "2"] ∧
    pack (str "1\n2") = .ok [2, 0, 0, 0, 0, 0, 0, 0] ∧
    pack (str "1\n2") ≠ .ok [1, 0, 0, 0, 2, 0, 0, 0] ∧
    Event.writeFile (str "/tmp/asm1/insts.bin") [2, 0, 0, 0, 0, 0, 0, 0] none
      ∈ (disassemble calmEnv defaultOpts (str "1\n2") []).1 := by
  decide

/-- C3, counterexample. The text `1\n` splits into the token `1` and an empty
token, the text with a blank line `1\n\n2` into `1`, an empty token and `2`; on
both the empty token is parsed and rejected with a syntax error, and the run of
`disassemble` exits without a buffer. -/
theorem pack_skips_empty_token_counterexample :
    splitLines (str "1\n") = [str "1", []] ∧
    pack (str "1\n") = .error (.format [] .errSyntax) ∧
    splitLines (str "1\n\n2") = [str "1", [], str "2"] ∧
    pack (str "1\n\n2") = .error (.format [] .errSyntax) ∧
    (disassemble calmEnv defaultOpts (str "1\n") []).2 = none := by
  decide

/-- C3 (amended). Every token of the split is parsed, the empty ones included,
and the empty token is a syntax error: a non-empty text with an empty token (a
trailing newline or a blank line) is rejected with a format error, and the run
of `disassemble` ends with exit status 1 with no file written and no tool
invoked. -/
theorem pack_rejects_empty_token (env : Env) (opts : Opts) (mcode : GoString)
    (_hne : mcode ≠ []) (hempty : [] ∈ splitLines mcode) :
    parseUint [] = .error .errSyntax ∧
    (∃ token e, pack mcode = .error (.format token e)) ∧
    (disassemble env opts mcode []).2 = none ∧
    (disassemble env opts mcode []).1.getLast? = some (Event.exit 1) ∧
    (disassemble env opts mcode []).1.any Event.isWriteFile = false ∧
    (disassemble env opts mcode []).1.any Event.isRun = false := by
  have hfail : ∃ token e, pack mcode = .error (.format token e) :=
    packLoop_error (splitLines mcode) _ (replicate_len_ge _ (splitLines_ne_nil mcode))
      ⟨[], hempty, Or.inr rfl⟩
  exact ⟨rfl, hfail, disassemble_rejected env opts mcode hfail⟩

/-- C3 (amended), at the text `1\n`. -/
theorem pack_rejects_empty_token_witness :
    str "1\n" ≠ [] ∧ [] ∈ splitLines (str "1\n") ∧
    parseUint [] = .error .errSyntax ∧
    (∃ token e, pack (str "1\n") = .error (.format token e)) ∧
    (disassemble calmEnv defaultOpts (str "1\n") []).2 = none ∧
    (disassemble calmEnv defaultOpts (str "1\n") []).1.getLast? = some (Event.exit 1) ∧
    (disassemble calmEnv defaultOpts (str "1\n") []).1.any Event.isWriteFile = false ∧
    (disassemble calmEnv defaultOpts (str "1\n") []).1.any Event.isRun = false :=
  ⟨by decide, by decide,
    pack_rejects_empty_token calmEnv defaultOpts (str "1\n") (by decide) (by decide)⟩

/-- C4. On a list of non-empty tokens the packing loop fails with a format error
exactly when some token has a byte that is not a hex digit or a base-16 value of
`2 ^ 32` or more; when every token is made of hex digits with a value below
`2 ^ 32` it returns the buffer; and when the tokens are those of the text given
to `disassemble`, the failing run ends with exit status 1 before any file is
written or any tool invoked. -/
theorem pack_fails_iff_bad_token (tokens : List GoString) (hne : ∀ t ∈ tokens, t ≠ []) :
    ((∃ token e,
        packLoop tokens (List.replicate (4 * tokens.length) 0) = .error (.format token e)) ↔
      ∃ t ∈ tokens, (∃ c ∈ t, ¬ isHexDigit c) ∨ 2 ^ 32 ≤ hexVal t) ∧
    ((∀ t ∈ tokens, (∀ c ∈ t, isHexDigit c) ∧ hexVal t < 2 ^ 32) →
      ∃ buf, packLoop tokens (List.replicate (4 * tokens.length) 0) = .ok buf) ∧
    (∀ (env : Env) (opts : Opts) (mcode : GoString), splitLines mcode = tokens →
      (∃ t ∈ tokens, (∃ c ∈ t, ¬ isHexDigit c) ∨ 2 ^ 32 ≤ hexVal t) →
      (disassemble env opts mcode []).2 = none ∧
      (disassemble env opts mcode []).1.getLast? = some (Event.exit 1) ∧
      (disassemble env opts mcode []).1.any Event.isWriteFile = false ∧
      (disassemble env opts mcode []).1.any Event.isRun = false) := by
  have hgoodok : (∀ t ∈ tokens, ¬ badToken t) →
      ∃ buf, packLoop tokens (List.replicate (4 * tokens.length) 0) = .ok buf := by
    intro hgood
    cases tokens with
    | nil => exact ⟨_, rfl⟩
    | cons t ts =>
      exact ⟨_, packLoop_ok (t :: ts) _ (replicate_len_ge _ (List.cons_ne_nil t ts))
        (fun x hx => ⟨hne x hx, hgood x hx⟩)⟩
  have hbaderr : (∃ t ∈ tokens, badToken t) →
      ∃ token e,
        packLoop tokens (List.replicate (4 * tokens.length) 0) = .error (.format token e) := by
    intro hbad
    obtain ⟨t, ht, hb⟩ := hbad
    have hnil : tokens ≠ [] := List.ne_nil_of_mem ht
    exact packLoop_error tokens _ (replicate_len_ge _ hnil) ⟨t, ht, Or.inl hb⟩
  refine ⟨⟨?_, hbaderr⟩, ?_, ?_⟩
  · intro herr
    by_contra hno
    have hgood : ∀ t ∈ tokens, ¬ badToken t := by
      intro t ht hb; exact hno ⟨t, ht, hb⟩
    obtain ⟨buf, hok⟩ := hgoodok hgood
    obtain ⟨token, e, he⟩ := herr
    rw [hok] at he
    simp at he
  · intro hall
    apply hgoodok
    intro t ht hb
    obtain ⟨h1, h2⟩ := hall t ht
    rcases hb with ⟨c, hc, hnc⟩ | hb
    · exact hnc (h1 c hc)
    · omega
  · intro env opts mcode hsplit hbad
    apply disassemble_rejected
    subst hsplit
    exact hbaderr hbad

/-- C4, at the tokens `1` and `100000000`. -/
theorem pack_fails_iff_bad_token_witness :
    (∀ t ∈ [str "1", str "100000000"], t ≠ []) ∧
    2 ^ 32 ≤ hexVal (str "100000000") ∧
    ∃ token e,
      packLoop [str "1", str "100000000"]
        (List.replicate (4 * [str "1", str "100000000"].length) 0) = .error (.format token e) :=
  ⟨by decide, by decide,
    (pack_fails_iff_bad_token [str "1", str "100000000"] (by decide)).1.mpr
      ⟨str "100000000", by decide, Or.inr (by decide)⟩⟩

theorem leUint32_lt (b0 b1 b2 b3 : Byte) : leUint32 b0 b1 b2 b3 < 16 ^ 8 := by
  rw [leUint32_eq]
  have h0 := b0.isLt
  have h1 := b1.isLt
  have h2 := b2.isLt
  have h3 := b3.isLt
  omega

theorem leUint16_lt (b0 b1 : Byte) : leUint16 b0 b1 < 16 ^ 4 := by
  rw [leUint16_eq]
  have h0 := b0.isLt
  have h1 := b1.isLt
  omega

/-- C6, counterexample. The six-byte image `01 00 00 00 02 00` prints the two
lines `1` and `2`, of one hex digit each, not of 8 and 4; and the image
`01 02 03` prints `201`, not `0201`. -/
theorem hex_tokens_fixed_width_counterexample :
    (emitTokens [1, 0, 0, 0, 2, 0]).map Token.text = [str "1\n", str "2\n"] ∧
    (fmtHex (leUint32 1 0 0 0)).length ≠ 8 ∧
    (fmtHex (leUint16 2 0)).length ≠ 4 ∧
    (emitTokens [1, 2, 3]).map Token.text = [str "201\n", str "[3]\n"] ∧
    fmtHex (leUint16 1 2) ≠ str "0201" := by
  decide

/-- C6 (amended). The hex tokens have their natural width: a 32-bit token is
between 1 and 8 lowercase hex digits and a 16-bit token between 1 and 4, they
read back as the value, and they carry no leading zero (the value 0 is the one
digit `0`). Every image of exactly 6 bytes prints exactly two lines, the 32-bit
token of its first four bytes and then the 16-bit token of its last two; and
the image `01 02 03` prints the 16-bit token `201`. -/
theorem hex_tokens_natural_width (b0 b1 b2 b3 b4 b5 : Byte) :
    (1 ≤ (fmtHex (leUint32 b0 b1 b2 b3)).length ∧ (fmtHex (leUint32 b0 b1 b2 b3)).length ≤ 8 ∧
      (fmtHex (leUint32 b0 b1 b2 b3)).all (fun c => decide (isLowerHexDigit c)) = true ∧
      hexVal (fmtHex (leUint32 b0 b1 b2 b3)) = leUint32 b0 b1 b2 b3 ∧
      (fmtHex (leUint32 b0 b1 b2 b3) = str "0" ∨
        (fmtHex (leUint32 b0 b1 b2 b3)).head? ≠ some 48)) ∧
    (1 ≤ (fmtHex (leUint16 b4 b5)).length ∧ (fmtHex (leUint16 b4 b5)).length ≤ 4 ∧
      (fmtHex (leUint16 b4 b5)).all (fun c => decide (isLowerHexDigit c)) = true ∧
      hexVal (fmtHex (leUint16 b4 b5)) = leUint16 b4 b5 ∧
      (fmtHex (leUint16 b4 b5) = str "0" ∨ (fmtHex (leUint16 b4 b5)).head? ≠ some 48)) ∧
    emitTokens [b0, b1, b2, b3, b4, b5]
      = [Token.word32 (leUint32 b0 b1 b2 b3), Token.word16 (leUint16 b4 b5)] ∧
    emitText [b0, b1, b2, b3, b4, b5]
      = fmtHex (leUint32 b0 b1 b2 b3) ++ str "\n" ++ (fmtHex (leUint16 b4 b5) ++ str "\n") ∧
    (emitTokens [1, 2, 3]).map Token.text = [str "201\n", str "[3]\n"] := by
  obtain ⟨a1, a2, a3, a4, a5⟩ := fmtHex_spec 7 (leUint32 b0 b1 b2 b3) (leUint32_lt b0 b1 b2 b3)
  obtain ⟨c1, c2, c3, c4, c5⟩ := fmtHex_spec 3 (leUint16 b4 b5) (leUint16_lt b4 b5)
  have hzero : str "0" = [48] := by decide
  refine ⟨⟨a1, a2, ?_, a4, ?_⟩, ⟨c1, c2, ?_, c4, ?_⟩, rfl, ?_, by decide⟩
  · rw [List.all_eq_true]
    intro c hc
    exact decide_eq_true (a3 c hc).1
  · rw [hzero]
    rcases a5 with ⟨h, _⟩ | h
    · exact Or.inl h
    · exact Or.inr h
  · rw [List.all_eq_true]
    intro c hc
    exact decide_eq_true (c3 c hc).1
  · rw [hzero]
    rcases c5 with ⟨h, _⟩ | h
    · exact Or.inl h
    · exact Or.inr h
  · simp [emitText, emitTokens, emitWords, emitHalf, emitTail, Token.text]

theorem indexByte_takeWhile (c : Byte) (s : GoString) :
    (match indexByte c s with
      | some i => s.take i
      | none => s) = s.takeWhile (fun x => decide (x ≠ c)) := by
  induction s with
  | nil => rfl
  | cons x xs ih =>
    unfold indexByte
    by_cases hx : x = c
    · simp [hx]
    · rw [if_neg hx]
      have htw : (x :: xs).takeWhile (fun y => decide (y ≠ c))
          = x :: xs.takeWhile (fun y => decide (y ≠ c)) := by
        simp [List.takeWhile_cons, hx]
      rw [htw, ← ih]
      cases hi : indexByte c xs with
      | none => simp
      | some i => simp

theorem cut_before (s : GoString) (c : Byte) :
    (cut s c).1 = s.takeWhile (fun x => decide (x ≠ c)) := by
  rw [← indexByte_takeWhile]
  unfold cut
  cases indexByte c s <;> rfl

theorem disassemblePath_runs (env : Env) (opts : Opts) (mcode : GoString)
    (res : List Event × Option Unit) (h : DisassemblePath env opts mcode res) :
    ∃ dir : GoString,
      res.1.filter Event.isRun = [] ∨
      ∃ r : RunResult, res.1.filter Event.isRun
        = [Event.run (opts.Prefix ++ str "-objdump")
            [str "-b", str "binary", str "-m", arch opts opts.Prefix, str "-D",
              env.join dir (str "insts.bin")] r] := by
  have hinv : ∀ (dir : GoString) (r : RunResult),
      (invoked opts (objdumpCall env opts dir) r).filter Event.isRun
        = [Event.run (opts.Prefix ++ str "-objdump")
            [str "-b", str "binary", str "-m", arch opts opts.Prefix, str "-D",
              env.join dir (str "insts.bin")] r] := by
    intro dir r
    unfold invoked objdumpCall
    split <;> simp [Event.isRun]
  cases h with
  | noDir dir e => exact ⟨dir, Or.inl (by simp [Event.isRun])⟩
  | badToken dir token e hp => exact ⟨dir, Or.inl (by simp [Event.isRun])⟩
  | noBuffer dir buf e hp => exact ⟨dir, Or.inl (by simp [Event.isRun])⟩
  | objdumpFailed dir buf r e hp h1 =>
    refine ⟨dir, Or.inr ⟨r, ?_⟩⟩
    simp only [List.filter_append, hinv]
    simp [aborted, Event.isRun]
  | printed dir buf r hp h1 =>
    refine ⟨dir, Or.inr ⟨r, ?_⟩⟩
    simp only [List.filter_append, hinv]
    simp [Event.isRun]

/-- When `TempDir` succeeds, every token parses and the buffer is written, the run
of `disassemble` invokes the disassembler, once, on the file in the staging
directory, with `arch(opts.Prefix)` after `-m`. -/
theorem disassemble_invokes_objdump (env : Env) (opts : Opts) (mcode : GoString)
    (buf : List Byte) (hd : (env.tempDir []).2 = none) (hp : pack mcode = .ok buf)
    (hw : env.writeFile [Event.tempDir (env.tempDir []).1 none]
      (env.join (env.tempDir []).1 (str "insts.bin")) buf = none) :
    ∃ r : RunResult, (disassemble env opts mcode []).1.filter Event.isRun
      = [Event.run (opts.Prefix ++ str "-objdump")
          [str "-b", str "binary", str "-m", arch opts opts.Prefix, str "-D",
            env.join (env.tempDir []).1 (str "insts.bin")] r] := by
  have hlen : ¬ (splitLines mcode).length = 0 := by
    intro h; exact splitLines_ne_nil mcode (List.length_eq_zero.mp h)
  have hp1 : packLoop (splitLines mcode) (List.replicate (4 * (splitLines mcode).length) 0)
      = .ok buf := hp
  have hinv : ∀ (r : RunResult),
      (invoked opts (objdumpCall env opts (env.tempDir []).1) r).filter Event.isRun
        = [Event.run (opts.Prefix ++ str "-objdump")
            [str "-b", str "binary", str "-m", arch opts opts.Prefix, str "-D",
              env.join (env.tempDir []).1 (str "insts.bin")] r] := by
    intro r
    unfold invoked objdumpCall
    split <;> simp [Event.isRun]
  unfold disassemble
  simp only [if_neg hlen, run_bind, ioTempDir, ioWriteFile, hd, must, Option.map_none',
    List.nil_append, packRun, hp1, hw]
  obtain ⟨r, h | ⟨e, h, hdc⟩⟩ := docmd_cases env opts (objdumpCall env opts (env.tempDir []).1)
    [Event.tempDir (env.tempDir []).1 none,
      Event.writeFile (env.join (env.tempDir []).1 (str "insts.bin")) buf none]
  · obtain ⟨h, hdc⟩ := h
    simp only [List.cons_append, List.nil_append] at hdc
    refine ⟨r, ?_⟩
    simp only [List.cons_append, List.nil_append, hdc, List.filter_append, List.filter_cons,
      hinv]
    simp [Event.isRun]
  · simp only [List.cons_append, List.nil_append] at hdc
    refine ⟨r, ?_⟩
    simp only [List.cons_append, List.nil_append, hdc, List.filter_append, List.filter_cons,
      hinv]
    simp [aborted, Event.isRun]

/-- C9. The architecture hint is the `Machine` override when that is non-empty,
and otherwise the bytes of the toolchain prefix before its first `-` (the whole
prefix when it has none). A run of `disassemble` invokes no tool but the
disassembler, at most once and with this hint after `-m`; and it does invoke it,
with this hint after `-m` and on the file `insts.bin` of the staging directory,
whenever `TempDir` succeeds, every token parses and the buffer is written. The
prefix `arm-none-eabi` without an override gives `arm`. -/
theorem arch_hint_from_override_or_prefix (env : Env) (opts : Opts) (mcode : GoString) :
    arch opts opts.Prefix
      = (if opts.Machine ≠ [] then opts.Machine
          else opts.Prefix.takeWhile (fun c => decide (c ≠ 45))) ∧
    (∃ dir : GoString,
      (disassemble env opts mcode []).1.filter Event.isRun = [] ∨
      ∃ r : RunResult, (disassemble env opts mcode []).1.filter Event.isRun
        = [Event.run (opts.Prefix ++ str "-objdump")
            [str "-b", str "binary", str "-m", arch opts opts.Prefix, str "-D",
              env.join dir (str "insts.bin")] r]) ∧
    (∀ buf : List Byte, (env.tempDir []).2 = none → pack mcode = .ok buf →
      env.writeFile [Event.tempDir (env.tempDir []).1 none]
        (env.join (env.tempDir []).1 (str "insts.bin")) buf = none →
      ∃ r : RunResult, (disassemble env opts mcode []).1.filter Event.isRun
        = [Event.run (opts.Prefix ++ str "-objdump")
            [str "-b", str "binary", str "-m", arch opts opts.Prefix, str "-D",
              env.join (env.tempDir []).1 (str "insts.bin")] r]) ∧
    arch defaultOpts (str "arm-none-eabi") = str "arm" := by
  refine ⟨?_, disassemblePath_runs env opts mcode _ (disassemble_path env opts mcode),
    fun buf hd hp hw => disassemble_invokes_objdump env opts mcode buf hd hp hw, by decide⟩
  unfold arch
  split
  · rfl
  · exact cut_before opts.Prefix 45

/-- C9, at the text `e3a00001` with the prefix `arm-none-eabi` and no override,
in an environment where every call succeeds: the one tool invoked is
`arm-none-eabi-objdump -b binary -m arm -D /tmp/asm1/insts.bin`; and with the
override `thumb` the hint is `thumb`. -/
theorem arch_hint_from_override_or_prefix_witness :
    (calmEnv.tempDir []).2 = none ∧
    pack (str "e3a00001") = .ok [0x01, 0x00, 0xa0, 0xe3] ∧
    (disassemble calmEnv defaultOpts (str "e3a00001") []).1.filter Event.isRun
      = [Event.run (str "arm-none-eabi-objdump")
          [str "-b", str "binary", str "-m", str "arm", str "-D", str "/tmp/asm1/insts.bin"]
          ⟨str "out", [], none⟩] ∧
    arch { defaultOpts with Machine := str "thumb" } (str "arm-none-eabi") = str "thumb" ∧
    arch { defaultOpts with Prefix := str "riscv64" } (str "riscv64") = str "riscv64" ∧
    ∃ r : RunResult,
      (disassemble calmEnv defaultOpts (str "e3a00001") []).1.filter Event.isRun
        = [Event.run (defaultOpts.Prefix ++ str "-objdump")
            [str "-b", str "binary", str "-m", arch defaultOpts defaultOpts.Prefix, str "-D",
              calmEnv.join (calmEnv.tempDir []).1 (str "insts.bin")] r] :=
  ⟨by decide, by decide, by decide, by decide, by decide,
    ( arch_hint_from_override_or_prefix calmEnv defaultOpts (str "e3a00001")).2.2.1
      [0x01, 0x00, 0xa0, 0xe3] (by decide) (by decide) (by decide)⟩

/-! ## The claims: encode output fed to the packer -/

theorem splitLines_no_newline (s : GoString) (h : (10 : Byte) ∉ s) : splitLines s = [s] := by
  induction s with
  | nil => rfl
  | cons c cs ih =>
    have hc : c ≠ 10 := fun e => h (by rw [e]; exact List.mem_cons_self 10 cs)
    have hcs : (10 : Byte) ∉ cs := fun m => h (List.mem_cons_of_mem c m)
    unfold splitLines
    rw [if_neg hc, ih hcs]

theorem splitLines_line (s rest : GoString) (h : (10 : Byte) ∉ s) :
    splitLines (s ++ 10 :: rest) = s :: splitLines rest := by
  induction s with
  | nil => simp [splitLines]
  | cons c cs ih =>
    have hc : c ≠ 10 := fun e => h (by rw [e]; exact List.mem_cons_self 10 cs)
    have hcs : (10 : Byte) ∉ cs := fun m => h (List.mem_cons_of_mem c m)
    rw [List.cons_append, splitLines, if_neg hc, ih hcs]

theorem fmtHex_good (u : Nat) (hu : u < 2 ^ 32) :
    fmtHex u ≠ [] ∧ ¬ badToken (fmtHex u) ∧ hexVal (fmtHex u) = u ∧ (10 : Byte) ∉ fmtHex u := by
  obtain ⟨h1, _, h3, h4, _⟩ := fmtHex_spec 7 u (by omega)
  refine ⟨?_, ?_, h4, ?_⟩
  · intro h; rw [h] at h1; simp at h1
  · intro hb
    rcases hb with ⟨c, hc, hnc⟩ | hb
    · exact hnc (h3 c hc).2
    · omega
  · intro hm
    have := (h3 10 hm).2
    revert this
    decide

theorem str_newline : str "\n" = [10] := by decide

theorem splitLines_hexLines (vs : List Nat) (hvs : ∀ v ∈ vs, v < 2 ^ 32) (s : GoString) :
    splitLines (hexLines vs ++ s) = vs.map fmtHex ++ splitLines s := by
  induction vs with
  | nil => simp [hexLines]
  | cons v vs ih =>
    have hv := fmtHex_good v (hvs v (List.mem_cons_self v vs))
    have hrest : hexLines (v :: vs) ++ s = fmtHex v ++ 10 :: (hexLines vs ++ s) := by
      simp [hexLines, str_newline]
    rw [hrest, splitLines_line _ _ hv.2.2.2, ih (fun x hx => hvs x (List.mem_cons_of_mem v hx))]
    simp

theorem hexLines_snoc (vs : List Nat) (v : Nat) :
    hexLines (vs ++ [v]) = hexLines vs ++ fmtHex v ++ [10] := by
  simp [hexLines, str_newline]

theorem emitText_aligned (B : List Byte) : B.length % 4 = 0 →
    emitText B = hexLines (wordValues B) ∧ (∀ v ∈ wordValues B, v < 2 ^ 32) ∧
      (wordValues B).length = B.length / 4 := by
  induction B using list_by_fours with
  | short l h =>
    intro hal
    have : l.length = 0 := by omega
    have hl : l = [] := List.length_eq_zero.mp this
    subst hl
    exact ⟨rfl, by simp [wordValues], rfl⟩
  | step b0 b1 b2 b3 rest ih =>
    intro hal
    have hal1 : rest.length % 4 = 0 := by
      simp only [List.length_cons] at hal; omega
    obtain ⟨h1, h2, h3⟩ := ih hal1
    refine ⟨?_, ?_, ?_⟩
    · unfold emitText at h1 ⊢
      rw [emitTokens_cons4]
      simp only [List.map_cons, List.flatten_cons, h1, wordValues, hexLines, Token.text]
    · intro v hv
      simp only [wordValues, List.mem_cons] at hv
      rcases hv with rfl | hv
      · have := leUint32_lt b0 b1 b2 b3; omega
      · exact h2 v hv
    · simp only [wordValues, List.length_cons, h3]; omega

/-- C10, counterexample. For the image `01 00 00 00` encode mode prints `1\n`;
the packer splits it into `1` and an empty token and rejects the empty token.
The same happens with the two-word image `01 00 00 00 02 00 00 00`. -/
theorem roundtrip_aligned_counterexample :
    emitText [1, 0, 0, 0] = str "1\n" ∧
    pack (emitText [1, 0, 0, 0]) = .error (.format [] .errSyntax) ∧
    emitText [1, 0, 0, 0, 2, 0, 0, 0] = str "1\n2\n" ∧
    pack (emitText [1, 0, 0, 0, 2, 0, 0, 0]) = .error (.format [] .errSyntax) := by
  decide

/-- C10 (amended). For an image `B` whose length is a positive multiple of 4,
the text encode mode prints (each token followed by a newline) is rejected by
the packer, the final newline leaving an empty last token; without that final
newline the text is accepted and packs into a buffer of the length of `B`, and
for an image of exactly 4 bytes that buffer is `B`. -/
theorem roundtrip_aligned_without_final_newline (B : List Byte) (hpos : 0 < B.length)
    (hal : B.length % 4 = 0) :
    [] ∈ splitLines (emitText B) ∧
    (∃ token e, pack (emitText B) = .error (.format token e)) ∧
    (∃ buf, pack (emitText B).dropLast = .ok buf ∧ buf.length = B.length ∧
      (B.length = 4 → buf = B)) := by
  obtain ⟨htext, hvs, hlen⟩ := emitText_aligned B hal
  have hsplit : splitLines (emitText B) = (wordValues B).map fmtHex ++ [[]] := by
    have := splitLines_hexLines (wordValues B) hvs []
    rw [List.append_nil] at this
    rw [htext, this]
    rfl
  have hmem : [] ∈ splitLines (emitText B) := by
    rw [hsplit]; simp
  refine ⟨hmem, ?_, ?_⟩
  · exact packLoop_error (splitLines (emitText B)) _
      (replicate_len_ge _ (splitLines_ne_nil _)) ⟨[], hmem, Or.inr rfl⟩
  · have hne : wordValues B ≠ [] := by
      intro h0
      rw [h0] at hlen
      simp only [List.length_nil] at hlen
      omega
    obtain ⟨vs, v, hvv⟩ : ∃ vs v, wordValues B = vs ++ [v] :=
      ⟨(wordValues B).dropLast, (wordValues B).getLast hne,
        (List.dropLast_append_getLast hne).symm⟩
    have hv : v < 2 ^ 32 := hvs v (by rw [hvv]; simp)
    have hvs1 : ∀ x ∈ vs, x < 2 ^ 32 := fun x hx => hvs x (by rw [hvv]; simp [hx])
    have hgv := fmtHex_good v hv
    have hdrop : (emitText B).dropLast = hexLines vs ++ fmtHex v := by
      rw [htext, hvv, hexLines_snoc, List.dropLast_concat]
    have hsplit2 : splitLines (emitText B).dropLast = (wordValues B).map fmtHex := by
      rw [hdrop, splitLines_hexLines vs hvs1, splitLines_no_newline _ hgv.2.2.2, hvv]
      simp
    have hgood : ∀ t ∈ (wordValues B).map fmtHex, t ≠ [] ∧ ¬ badToken t := by
      intro t ht
      obtain ⟨x, hx, rfl⟩ := List.mem_map.mp ht
      exact ⟨(fmtHex_good x (hvs x hx)).1, (fmtHex_good x (hvs x hx)).2.1⟩
    have hnil : (wordValues B).map fmtHex ≠ [] := by simpa using hne
    have hok := packLoop_ok ((wordValues B).map fmtHex) _ (replicate_len_ge _ hnil) hgood
    have hlast : ((wordValues B).map fmtHex).getLast? = some (fmtHex v) := by
      rw [hvv]; simp
    rw [hlast] at hok
    simp only [] at hok
    refine ⟨leBytes32 (hexVal (fmtHex v)) ++
      List.drop 4 (List.replicate (4 * ((wordValues B).map fmtHex).length) 0), ?_, ?_, ?_⟩
    · unfold pack
      simp only [hsplit2]
      exact hok
    · rw [List.length_append, leBytes32_length, List.length_drop, List.length_replicate,
        List.length_map, hlen]
      omega
    · intro h4
      match B, h4, hvv with
      | [b0, b1, b2, b3], _, hvv =>
        simp only [wordValues] at hvv
        have hv0 : v = leUint32 b0 b1 b2 b3 := by
          cases vs with
          | nil => simpa using hvv.symm
          | cons y ys =>
            have := congrArg List.length hvv
            simp at this
        subst hv0
        rw [hgv.2.2.1, leBytes32_leUint32]
        simp [wordValues]

/-- C10 (amended), at the image `78 56 34 12`. -/
theorem roundtrip_aligned_without_final_newline_witness :
    0 < [(0x78 : Byte), 0x56, 0x34, 0x12].length ∧
    [(0x78 : Byte), 0x56, 0x34, 0x12].length % 4 = 0 ∧
    emitText [0x78, 0x56, 0x34, 0x12] = str "12345678\n" ∧
    pack (str "12345678") = .ok [0x78, 0x56, 0x34, 0x12] ∧
    [] ∈ splitLines (emitText [0x78, 0x56, 0x34, 0x12]) ∧
    (∃ token e, pack (emitText [0x78, 0x56, 0x34, 0x12]) = .error (.format token e)) ∧
    (∃ buf, pack (emitText [0x78, 0x56, 0x34, 0x12]).dropLast = .ok buf ∧
      buf.length = [(0x78 : Byte), 0x56, 0x34, 0x12].length ∧
      ([(0x78 : Byte), 0x56, 0x34, 0x12].length = 4 → buf = [0x78, 0x56, 0x34, 0x12])) :=
  ⟨by decide, by decide, by decide, by decide,
    roundtrip_aligned_without_final_newline [0x78, 0x56, 0x34, 0x12] (by decide) (by decide)⟩

end Asm
